import Mathlib

/-!
Shallow embedding of the diff engine in `src/myers/myers.go` (package `myers`).
Go strings are modelled as lists of code points (`List Nat`), matching the
`[]rune` view the engine works on; Go slices of runes are the same type.
Machine integers of the solver are modelled as `Int` (Go `int`), with Go's
out-of-range slice reads modelled by a default value on paths the algorithm
never takes.  Assertion calls of the `invariant` package do not affect the
computed values and are not part of the embedding.
-/

namespace Myers

/-- Symbols are Unicode code points (Go `rune`), modelled as `Nat`. -/
abbrev Sym := Nat

/-- Go constant `EditRetain uint8 = 10`. -/
def EditRetain : Nat := 10

/-- Go constant `EditDelete = 20`. -/
def EditDelete : Nat := 20

/-- Go constant `EditInsert = 30`. -/
def EditInsert : Nat := 30

/-- Go struct `Edit { Kind uint8; Data []rune }`. -/
structure Edit where
  Kind : Nat
  Data : List Sym
deriving Repr, DecidableEq

instance : Inhabited Edit := ⟨⟨0, []⟩⟩

/-- Go struct `Differ { Edits []Edit; Old, New []rune; OldStr, NewStr string }`.
Strings are kept as their rune sequences. -/
structure Differ where
  Edits : List Edit
  Old : List Sym
  New : List Sym
  OldStr : List Sym
  NewStr : List Sym
deriving Repr, DecidableEq

/-- Go `New(old, new string) *Differ`. -/
def New (old new : List Sym) : Differ :=
  { Edits := [], Old := old, New := new, OldStr := old, NewStr := new }

/-- Conversion of a Lean string literal to its code-point sequence, for
concrete test inputs. -/
def strSyms (s : String) : List Sym := s.data.map Char.toNat

/-- Index of the first position below `min |a| |b|` where `a` and `b` differ
(the loop counter at which `findCommonPrefix` returns), `none` when the scan
runs past the shorter list without a mismatch. -/
def mismatchIdx : List Sym → List Sym → Option Nat
  | a :: as, b :: bs =>
      if a ≠ b then some 0 else (mismatchIdx as bs).map (fun i => i + 1)
  | _, _ => none

/-- Go `findCommonPrefix(a, b []rune) []rune`: returns `a[:i]` at the first
mismatch index `i`; returns nil when either list is empty or when the scan
completes without a mismatch (so it returns nil when one list is a prefix of
the other). -/
def findCommonPrefix (a b : List Sym) : List Sym :=
  match mismatchIdx a b with
  | some i => a.take i
  | none => []

/-- Go `findCommonSuffix(a, b []rune) []rune`: returns `a[la-i:]` at the first
mismatch offset `i` from the end; nil when the scan completes without a
mismatch (so nil when one list is a suffix of the other). -/
def findCommonSuffix (a b : List Sym) : List Sym :=
  match mismatchIdx a.reverse b.reverse with
  | some i => (a.reverse.take i).reverse
  | none => []

/-- Go `runesHavePrefix(str, expect []rune) bool`. -/
def runesHavePrefix (str expect : List Sym) : Bool :=
  if str.length = 0 || expect.length = 0 || decide (str.length < expect.length) then false
  else str.take expect.length == expect

/-- Go `runesHaveSuffix(str, expect []rune) bool`. -/
def runesHaveSuffix (str expect : List Sym) : Bool :=
  if str.length = 0 || expect.length = 0 || decide (str.length < expect.length) then false
  else str.drop (str.length - expect.length) == expect

/-- Go `runesIndex(haystack, needle []rune) int`: first start offset at which
`needle` occurs in `haystack`, `-1` when `needle` is empty, longer than
`haystack`, or absent. -/
def runesIndex (haystack needle : List Sym) : Int :=
  if 0 < needle.length ∧ needle.length ≤ haystack.length then
    match (List.range (haystack.length - needle.length + 1)).findSome?
        (fun start =>
          if (haystack.drop start).take needle.length = needle then some start else none) with
    | some s => (s : Int)
    | none => -1
  else -1

/-- The two inner loops of `findCommonSubstring` at one candidate length: all
start offsets `i` in `a` and `j` in `b` in increasing order, returning the
first equal pair of length-`len` slices. -/
def fcsInner (a b : List Sym) (len : Nat) : Option (List Sym) :=
  (List.range (a.length - len + 1)).findSome? (fun i =>
    (List.range (b.length - len + 1)).findSome? (fun j =>
      let sa := (a.drop i).take len
      let sb := (b.drop j).take len
      if sa = sb then some sa else none))

/-- The outer loop of `findCommonSubstring`: candidate lengths from `|b|` down
to `(|a|+1)/2` (`a` is the longer input by the time this runs). -/
def fcsSearch (a b : List Sym) : Option (List Sym) :=
  (List.range (b.length + 1 - (a.length + 1) / 2)).findSome?
    (fun dl => fcsInner a b (b.length - dl))

/-- Go `findCommonSubstring(a, b []rune) []rune`: after swapping so that `a`
is the longer input, searches lengths from `|b|` down to `(|a|+1)/2` (half the
longer input rounded up), and for each length all start offsets `i` in `a` and
`j` in `b` in increasing order, returning the first equal pair of slices. -/
def findCommonSubstring (a b : List Sym) : List Sym :=
  let p := if a.length < b.length then (b, a) else (a, b)
  let a := p.1
  let b := p.2
  if (a.length + 1) / 2 ≤ b.length then
    match fcsSearch a b with
    | some s => s
    | none => []
  else []

/-- Go `Differ.rebuildStringFromEdits`: (concatenated Retain and Delete data,
concatenated Retain and Insert data). -/
def rebuildStringFromEdits (d : Differ) : List Sym × List Sym :=
  d.Edits.foldl (fun acc edit =>
    if edit.Kind = EditRetain then (acc.1 ++ edit.Data, acc.2 ++ edit.Data)
    else if edit.Kind = EditDelete then (acc.1 ++ edit.Data, acc.2)
    else if edit.Kind = EditInsert then (acc.1, acc.2 ++ edit.Data)
    else acc) ([], [])

/-- Prefix character of Go `Differ.String` for an edit kind: space, `+`, `-`,
empty for an unknown kind. -/
def kindMark (kind : Nat) : List Sym :=
  if kind = EditRetain then [32]
  else if kind = EditInsert then [43]
  else if kind = EditDelete then [45]
  else []

/-- Quote escaping of Go `Differ.String`: a `"` in the data is preceded by a
backslash. -/
def escapeQuotes (data : List Sym) : List Sym :=
  data.foldl (fun acc r => if r = 34 then acc ++ [92, 34] else acc ++ [r]) []

/-- Go method `Differ.String`: the inline rendering; edits with empty data are
skipped, each other edit renders as its kind mark and its quoted data. -/
def DifferString (d : Differ) : List Sym :=
  d.Edits.foldl (fun acc edit =>
    if edit.Data.length = 0 then acc
    else acc ++ kindMark edit.Kind ++ [34] ++ escapeQuotes edit.Data ++ [34]) []

/-- Read of the tracker array at an `Int` offset; every read the algorithm
performs is in range, out-of-range reads return the array's zero value. -/
def lgetI (l : List Int) (i : Int) : Int :=
  if i < 0 then 0 else l.getD i.toNat 0

/-- Write to the tracker array at an `Int` offset (in range on every path the
algorithm takes). -/
def lsetI (l : List Int) (i : Int) (v : Int) : List Int :=
  if i < 0 then l else l.set i.toNat v

/-- Symbol of a sequence at an `Int` position (in range whenever the solver
reads it). -/
def symAt (s : List Sym) (i : Int) : Sym :=
  if i < 0 then 0 else s.getD i.toNat 0

/-- The snake loop of `Differ.AlgorithmDiff`:
`for x < len(old) && y < len(new) && old[x] == new[y] { x, y = x+1, y+1 }`.
The fuel `|old| + 1` always suffices since `x` stays below `|old|`. -/
def snake (old new : List Sym) : Nat → Int → Int → Int × Int
  | 0, x, y => (x, y)
  | fuel + 1, x, y =>
      if x < (old.length : Int) ∧ y < (new.length : Int) ∧ symAt old x = symAt new y then
        snake old new fuel (x + 1) (y + 1)
      else (x, y)

/-- Diagonals visited at a depth: `k = -depth, -depth+2, ..., depth`. -/
def kList (depth : Nat) : List Int :=
  (List.range (depth + 1)).map (fun i => -(depth : Int) + 2 * (i : Int))

/-- One depth of the forward pass of `Differ.AlgorithmDiff` over its list of
diagonals; the second component is Go's `shouldContinue` (false as soon as one
diagonal reaches the bottom-right corner, skipping the remaining diagonals). -/
def forwardK (old new : List Sym) (maxEdits depth : Nat) :
    List Int → List Int → List Int × Bool
  | [], tracker => (tracker, true)
  | k :: rest, tracker =>
      let kOffset : Int := (maxEdits : Int) + k
      let isInsert : Bool :=
        k = -(depth : Int) ||
          (k ≠ (depth : Int) && lgetI tracker (kOffset - 1) < lgetI tracker (kOffset + 1))
      let prevX := if isInsert then lgetI tracker (kOffset + 1) else lgetI tracker (kOffset - 1)
      let x0 := if isInsert then prevX else prevX + 1
      let y0 := x0 - k
      let xy := snake old new (old.length + 1) x0 y0
      let tracker := lsetI tracker kOffset xy.1
      if (old.length : Int) ≤ xy.1 ∧ (new.length : Int) ≤ xy.2 then (tracker, false)
      else forwardK old new maxEdits depth rest tracker

/-- The depth loop of the forward pass: runs depths `0, 1, ...` while
`shouldContinue`, recording a snapshot of the tracker after each depth
(Go appends `slices.Clone(tracker)` to `trace` before testing the break). -/
def forwardLoop (old new : List Sym) (maxEdits : Nat) :
    Nat → Nat → List Int → List (List Int) → List (List Int)
  | 0, _, _, traceAcc => traceAcc
  | remaining + 1, depth, tracker, traceAcc =>
      let r := forwardK old new maxEdits depth (kList depth) tracker
      let traceAcc := traceAcc ++ [r.1]
      if r.2 then forwardLoop old new maxEdits remaining (depth + 1) r.1 traceAcc
      else traceAcc

/-- The complete forward pass: `maxEdits + 1` depths over a zero-initialised
tracker of length `2*maxEdits + 1`. -/
def forward (old new : List Sym) (maxEdits : Nat) : List (List Int) :=
  forwardLoop old new maxEdits (maxEdits + 1) 0 (List.replicate (2 * maxEdits + 1) 0) []

/-- The backtracking loop of `Differ.AlgorithmDiff`, walking the recorded
trace from the last depth down to depth 0.  The first argument is the trace in
reverse (last depth first); edits are produced in Go's emission order, i.e.
reversed with respect to the final script.  At each depth: re-derive the
insert/delete choice from the snapshot, walk the diagonal back while
`x > prevX && y > prevY` emitting a `Retain` for the walked span, and emit one
single-symbol edit when `depth > 0`. -/
def backtrack (old new : List Sym) (maxEdits : Nat) :
    List (List Int) → Nat → Int → Int → List Edit
  | [], _, _, _ => []
  | tr :: rest, depth, x, y =>
      let k := x - y
      let kOffset : Int := (maxEdits : Int) + k
      let isInsert : Bool :=
        k = -(depth : Int) ||
          (k ≠ (depth : Int) && lgetI tr (kOffset - 1) < lgetI tr (kOffset + 1))
      let prevK := if isInsert then k + 1 else k - 1
      let prevX := lgetI tr ((maxEdits : Int) + prevK)
      let prevY := prevX - prevK
      let s := max 0 (min (x - prevX) (y - prevY))
      let left := x - s
      let retains : List Edit :=
        if left < x then [⟨EditRetain, (old.drop left.toNat).take (x - left).toNat⟩] else []
      let edits : List Edit :=
        if 0 < depth then
          if isInsert then [⟨EditInsert, (new.drop prevY.toNat).take 1⟩]
          else [⟨EditDelete, (old.drop prevX.toNat).take 1⟩]
        else []
      retains ++ edits ++ backtrack old new maxEdits rest (depth - 1) prevX prevY

/-- Go `Differ.AlgorithmDiff`: the core shortest-edit-script solver.  Early
returns: both sequences empty; whole-string equality (single retain); empty
new string (single delete); empty old string (single insert).  Otherwise the
forward pass runs and the backtracked edits are appended in forward order
(Go reverses the appended segment in place). -/
def AlgorithmDiff (d : Differ) : Differ :=
  if d.Old.length = 0 ∧ d.New.length = 0 then d
  else if d.OldStr = d.NewStr ∧ d.OldStr ≠ [] then
    { d with Edits := d.Edits ++ [⟨EditRetain, d.Old⟩] }
  else if d.NewStr = [] then { d with Edits := d.Edits ++ [⟨EditDelete, d.Old⟩] }
  else if d.OldStr = [] then { d with Edits := d.Edits ++ [⟨EditInsert, d.New⟩] }
  else
    let old := d.Old
    let new := d.New
    let maxEdits := old.length + new.length
    let trace := forward old new maxEdits
    let emitted :=
      backtrack old new maxEdits trace.reverse (trace.length - 1)
        (old.length : Int) (new.length : Int)
    { d with Edits := d.Edits ++ emitted.reverse }

/-- The recursive closure `recurse` inside `Differ.OptimizedDiff`: split at a
sufficiently long common substring and diff the two sides, falling back to
`AlgorithmDiff` when no such substring exists.  The fuel bounds the recursion
depth; `|Old| + |New| + 1` suffices because each recursive call strictly
shrinks `|Old| + |New|` (the found substring is non-empty and removed). -/
def optimizedRecurse : Nat → Differ → Differ
  | 0, d => d
  | fuel + 1, d =>
      let old := d.Old
      let new := d.New
      let substr := findCommonSubstring old new
      if substr.length = 0 then AlgorithmDiff d
      else
        let newSubstrStart := (runesIndex new substr).toNat
        let oldSubstrStart := (runesIndex old substr).toNat
        let d1 := optimizedRecurse fuel
          { d with Old := old.take oldSubstrStart, New := new.take newSubstrStart }
        let edits := d1.Edits ++ [⟨EditRetain, substr⟩]
        let d2 := optimizedRecurse fuel
          { d with Edits := edits,
                   Old := old.drop (oldSubstrStart + substr.length),
                   New := new.drop (newSubstrStart + substr.length) }
        { d with Edits := d2.Edits }

/-- The body of `Differ.OptimizedDiff` after its three whole-string fast
paths: common prefix and suffix trimming, simple delete/insert, the
delete/insert sandwich at a positive offset, and the divide-and-conquer
recursion; the trimmed common suffix is re-appended as a `Retain` by the
deferred function on every path. -/
def optimizedMiddle (d : Differ) : List Edit :=
  let old0 := d.Old
  let new0 := d.New
  let prefix0 := findCommonPrefix old0 new0
  let edits0 := if 0 < prefix0.length then d.Edits ++ [⟨EditRetain, prefix0⟩] else d.Edits
  let old1 := old0.drop prefix0.length
  let new1 := new0.drop prefix0.length
  let suffix0 := findCommonSuffix old1 new1
  let old := old1.take (old1.length - suffix0.length)
  let new := new1.take (new1.length - suffix0.length)
  let core : List Edit :=
    if 0 < old.length ∧ new.length = 0 then edits0 ++ [⟨EditDelete, old⟩]
    else if old.length = 0 ∧ 0 < new.length then edits0 ++ [⟨EditInsert, new⟩]
    else
      let x := runesIndex old new
      let y := runesIndex new old
      if 0 < x then
        edits0 ++ [⟨EditDelete, old.take x.toNat⟩,
          ⟨EditRetain, (old.drop x.toNat).take new.length⟩,
          ⟨EditDelete, old.drop (x.toNat + new.length)⟩]
      else if 0 < y then
        edits0 ++ [⟨EditInsert, new.take y.toNat⟩,
          ⟨EditRetain, (new.drop y.toNat).take old.length⟩,
          ⟨EditInsert, new.drop (y.toNat + old.length)⟩]
      else
        (optimizedRecurse (old.length + new.length + 1)
          { d with Edits := edits0, Old := old, New := new }).Edits
  core ++ (if 0 < suffix0.length then [⟨EditRetain, suffix0⟩] else [])

/-- Go `Differ.OptimizedDiff`: whole-string fast paths (equal, one side
empty), then `optimizedMiddle`: common prefix and suffix trimming, simple
delete/insert, delete/insert sandwich at a positive offset, and finally the
divide-and-conquer recursion.  The trimmed common suffix is re-appended as a
`Retain` by a deferred function on every path after trimming. -/
def OptimizedDiff (d : Differ) : Differ :=
  if d.OldStr = d.NewStr then { d with Edits := d.Edits ++ [⟨EditRetain, d.Old⟩] }
  else if d.NewStr = [] then { d with Edits := d.Edits ++ [⟨EditDelete, d.Old⟩] }
  else if d.OldStr = [] then { d with Edits := d.Edits ++ [⟨EditInsert, d.New⟩] }
  else { d with Edits := optimizedMiddle d }

/-- Replacement of the last element of the merge result's list by itself with
`extra` appended to its data (Go `prevRetain.Data = slices.Concat(...)`). -/
def growLastData (result : List Edit) (extra : List Sym) : List Edit :=
  match result.getLast? with
  | none => result
  | some last => result.dropLast ++ [⟨last.Kind, last.Data ++ extra⟩]

/-- The `EditRetain` arm of the merge pass of `Differ.MergeShiftDiffCleanup`:
flushes the pending delete and insert runs at a retain boundary, after
reassigning their common prefix to the previous retain and their common
suffix to the current retain's data.  Returns the new result list and the
remaining `old`/`new` sequences. -/
def mergeRetain (result : List Edit) (old new toDelete toInsert : List Sym)
    (edit : Edit) : List Edit × List Sym × List Sym :=
  let hasDelete := 0 < toDelete.length
  let hasInsert := 0 < toInsert.length
  let t :=
    if hasDelete ∧ hasInsert then
      let pfx := findCommonPrefix toInsert toDelete
      let t1 :=
        if 0 < pfx.length then
          (growLastData result pfx, toDelete.drop pfx.length, toInsert.drop pfx.length)
        else (result, toDelete, toInsert)
      let sfx := findCommonSuffix t1.2.2 t1.2.1
      if 0 < sfx.length then
        (t1.1, (⟨edit.Kind, edit.Data ++ sfx⟩ : Edit),
          t1.2.1.take (t1.2.1.length - sfx.length), t1.2.2.take (t1.2.2.length - sfx.length))
      else (t1.1, edit, t1.2.1, t1.2.2)
    else (result, edit, toDelete, toInsert)
  let result := t.1
  let edit := t.2.1
  let toDelete := t.2.2.1
  let toInsert := t.2.2.2
  let r1 := if hasDelete then (result ++ [⟨EditDelete, toDelete⟩], old.drop toDelete.length)
    else (result, old)
  let r2 := if hasInsert then (r1.1 ++ [⟨EditInsert, toInsert⟩], new.drop toInsert.length)
    else (r1.1, new)
  (r2.1 ++ [edit], r1.2.drop edit.Data.length, r2.2.drop edit.Data.length)

/-- State of the merge pass: the result list, the remaining `old` and `new`
sequences, and the pending delete/insert runs. -/
abbrev MergeState := List Edit × List Sym × List Sym × List Sym × List Sym

/-- One edit of the merge pass of `Differ.MergeShiftDiffCleanup`:
`Delete`/`Insert` edits extend the pending runs as prefixes of the remaining
`old`/`new` sequences, `Retain` edits flush them via `mergeRetain`, any other
kind is skipped. -/
def mergeStep (st : MergeState) (edit : Edit) : MergeState :=
  if edit.Kind = EditDelete then
    (st.1, st.2.1, st.2.2.1, st.2.1.take (st.2.2.2.1.length + edit.Data.length), st.2.2.2.2)
  else if edit.Kind = EditInsert then
    (st.1, st.2.1, st.2.2.1, st.2.2.2.1, st.2.2.1.take (st.2.2.2.2.length + edit.Data.length))
  else if edit.Kind = EditRetain then
    let r := mergeRetain st.1 st.2.1 st.2.2.1 st.2.2.2.1 st.2.2.2.2 edit
    (r.1, r.2.1, r.2.2, [], [])
  else st

/-- The merge pass of `Differ.MergeShiftDiffCleanup` over a whole edit list. -/
def mergePass (edits : List Edit) (dOld dNew : List Sym) : List Edit :=
  (edits.foldl mergeStep (([], dOld, dNew, [], []) : MergeState)).1

/-- One step of the shift pass: the scan keeps an output list `result` (whose
last element is Go's `prev` pointer) and the in-place mutated edit array `arr`
(whose element `i+1` is Go's `next` pointer).  A shifted edit is dropped from
the output and its neighbours are rewritten; the flag records that a shift
occurred. -/
def shiftLoop (fuelLen : Nat) (i : Nat) (result arr : List Edit) (isShifted : Bool) :
    List Edit × List Edit × Bool :=
  match fuelLen with
  | 0 => (result, arr, isShifted)
  | n + 1 =>
      let edit := arr.getD i default
      let prev := (result.getLast?).getD default
      let next := arr.getD (i + 1) default
      if prev.Kind = EditRetain ∧ next.Kind = EditRetain then
        if runesHaveSuffix edit.Data prev.Data then
          let arr := arr.set (i + 1) ⟨next.Kind, prev.Data ++ next.Data⟩
          let result := result.dropLast ++
            [⟨edit.Kind, prev.Data ++ edit.Data.take (edit.Data.length - prev.Data.length)⟩]
          shiftLoop n (i + 1) result arr true
        else if runesHavePrefix edit.Data next.Data then
          let result := result.dropLast ++ [⟨prev.Kind, prev.Data ++ next.Data⟩]
          let arr := arr.set (i + 1) ⟨edit.Kind, edit.Data.drop next.Data.length ++ next.Data⟩
          shiftLoop n (i + 1) result arr true
        else shiftLoop n (i + 1) (result ++ [edit]) arr isShifted
      else shiftLoop n (i + 1) (result ++ [edit]) arr isShifted

/-- One round of Go `Differ.MergeShiftDiffCleanup`: sentinel empty retains
are added at either end when the script does not start/end with a retain, the
merge pass runs, still-empty boundary retains are stripped, and the shift
pass runs; the second component records whether a shift occurred. -/
def cleanupRound (d : Differ) : List Edit × Bool :=
  let edits := d.Edits
  let edits := if (edits.headD default).Kind ≠ EditRetain then
      (⟨EditRetain, []⟩ : Edit) :: edits else edits
  let edits := if (edits.getLastD default).Kind ≠ EditRetain then
      edits ++ [⟨EditRetain, []⟩] else edits
  let merged := mergePass edits d.Old d.New
  let merged := if (merged.headD default).Data.length = 0 then merged.tail else merged
  let merged := if (merged.getLastD default).Data.length = 0 then merged.dropLast
    else merged
  let r := shiftLoop (merged.length - 2) 1 [merged.headD default] merged false
  (r.1 ++ [r.2.1.getD (r.2.1.length - 1) default], r.2.2)

/-- Go `Differ.MergeShiftDiffCleanup` with explicit recursion fuel (the Go
function calls itself whenever the shift pass moved an edit).  Scripts of
fewer than three edits are returned unchanged; otherwise one `cleanupRound`
(sentinels, merge, strips, shift) runs and the cleanup repeats when a shift
occurred. -/
def MergeShiftDiffCleanup : Nat → Differ → Differ
  | 0, d => d
  | fuel + 1, d =>
      if d.Edits.length < 3 then d
      else
        let r := cleanupRound d
        if r.2 then MergeShiftDiffCleanup fuel { d with Edits := r.1 }
        else { d with Edits := r.1 }

/-- Unfolding of one recursion step of the cleanup on a script of at least
three edits. -/
theorem MergeShiftDiffCleanup_succ (fuel : Nat) (d : Differ) (h : ¬ d.Edits.length < 3) :
    MergeShiftDiffCleanup (fuel + 1) d =
      if (cleanupRound d).2 then
        MergeShiftDiffCleanup fuel { d with Edits := (cleanupRound d).1 }
      else { d with Edits := (cleanupRound d).1 } := by
  rw [MergeShiftDiffCleanup, if_neg h]

/-- Fuel handed to the cleanup by the embedding of the pipeline entry points;
generous with respect to every recursion depth observed (each recursion
requires at least one shift). -/
def cleanupFuel (d : Differ) : Nat :=
  d.Edits.length + d.Old.length + d.New.length + 16

/-- Go `Differ.Diff` without the final rendering: runs `OptimizedDiff` then
`MergeShiftDiffCleanup` on the differ (the Go method returns `d.String()`;
`DifferString` renders the result). -/
def DiffRun (d : Differ) : Differ :=
  let d := OptimizedDiff d
  MergeShiftDiffCleanup (cleanupFuel d) d

/-- Go `Differ.Diff`: the rendered inline form of the full pipeline. -/
def Diff (d : Differ) : List Sym :=
  DifferString (DiffRun d)

/-- Go `strings.SplitSeq(s, "\n")` on a rune sequence: the list of lines
separated by line feeds; the empty string yields one empty line. -/
def splitLines : List Sym → List (List Sym)
  | [] => [[]]
  | c :: rest =>
      let r := splitLines rest
      if c = 10 then [] :: r else (c :: r.headD []) :: r.tail

/-- Lookup in the `lineToRune` map, modelled as an association list in
insertion order. -/
def lookupLine (m : List (List Sym × Nat)) (line : List Sym) : Option Nat :=
  (m.find? (fun p => p.1 == line)).map (fun p => p.2)

/-- Lookup in the `runeToLine` map (Go map access defaults to `""`). -/
def lookupRune (m : List (List Sym × Nat)) (ch : Nat) : List Sym :=
  ((m.find? (fun p => p.2 == ch)).map (fun p => p.1)).getD []

/-- The map-building loops of `Differ.LineDiff`: each not-yet-seen line is
assigned the next counter value. -/
def buildLineMap : List (List Sym) → List (List Sym × Nat) → Nat →
    List (List Sym × Nat) × Nat
  | [], m, ch => (m, ch)
  | line :: rest, m, ch =>
      if (lookupLine m line).isSome then buildLineMap rest m ch
      else buildLineMap rest (m ++ [(line, ch)]) (ch + 1)

/-- Go `strings.Builder.WriteRune`: an invalid rune (a surrogate or a value
above `0x10FFFF`) is written as `U+FFFD`. -/
def goWriteRune (r : Nat) : Nat :=
  if r < 55296 ∨ (57344 ≤ r ∧ r ≤ 1114111) then r else 65533

/-- The per-kind output prefix of `Differ.LineDiff` (space, `+`, `-`; the
`indicator` variable stays empty for an unknown kind). -/
def lineIndicator (kind : Nat) : List Sym :=
  if kind = EditRetain then [32]
  else if kind = EditInsert then [43]
  else if kind = EditDelete then [45]
  else []

/-- Concatenation of output lines with `"\n"` (Go `strings.Join(result, "\n")`). -/
def joinNL (pieces : List (List Sym)) : List Sym :=
  match pieces with
  | [] => []
  | p :: rest => rest.foldl (fun acc q => acc ++ 10 :: q) p

/-- The main branch of Go `Differ.LineDiff`: line-to-symbol mapping, the full
pipeline over the two synthetic sequences, and the expansion of every edit
symbol back into one prefixed output line; returns the rendered text and the
inner differ's edits. -/
def lineDiffCore (dfr : Differ) : List Sym × List Edit :=
  let oldLines := splitLines dfr.OldStr
  let newLines := splitLines dfr.NewStr
  let m1 := buildLineMap oldLines [] 0
  let m2 := buildLineMap newLines m1.1 m1.2
  let m := m2.1
  let oldSyms := oldLines.map (fun l => goWriteRune ((lookupLine m l).getD 0))
  let newSyms := newLines.map (fun l => goWriteRune ((lookupLine m l).getD 0))
  let d := New oldSyms newSyms
  let d := OptimizedDiff d
  let d := MergeShiftDiffCleanup (cleanupFuel d) d
  let pieces := d.Edits.foldl (fun acc edit =>
    if edit.Data.length = 0 then acc
    else acc ++ edit.Data.map (fun ch => lineIndicator edit.Kind ++ lookupRune m ch)) []
  (joinNL pieces, d.Edits)

/-- Go `Differ.LineDiff`: returns the rendered line diff together with the
updated differ (only `Edits` is replaced, by the inner differ's edits; the
early returns leave the differ untouched).  Each distinct line is mapped to a
synthetic rune, the full pipeline runs over the two synthetic sequences
(`lineDiffCore`), and every symbol of every edit expands back to one prefixed
output line. -/
def LineDiff (dfr : Differ) : List Sym × Differ :=
  if dfr.OldStr = dfr.NewStr then
    if dfr.OldStr = [] then ([], dfr) else (32 :: dfr.OldStr, dfr)
  else if dfr.OldStr = [] then (43 :: dfr.NewStr, dfr)
  else if dfr.NewStr = [] then (45 :: dfr.OldStr, dfr)
  else
    let r := lineDiffCore dfr
    (r.1, { dfr with Edits := r.2 })

/-- Total number of symbols in the `Insert` and `Delete` edits of a script. -/
def nonRetainSymCount (edits : List Edit) : Nat :=
  (edits.map (fun e => if e.Kind = EditRetain then 0 else e.Data.length)).sum

/-- Reference insert/delete edit distance between two sequences (the classical
recursion: free step on equal heads, otherwise one plus the cheaper of
dropping from either side). -/
def edist : List Sym → List Sym → Nat
  | [], b => b.length
  | a :: as, [] => (a :: as).length
  | a :: as, b :: bs =>
      if a = b then edist as bs
      else 1 + min (edist as (b :: bs)) (edist (a :: as) bs)

/-- A sequence that occurs contiguously in both `a` and `b`. -/
def IsCommonSubstring (s a b : List Sym) : Prop :=
  s.IsInfix a ∧ s.IsInfix b

instance instDecidableIsCommonSubstring (s a b : List Sym) :
    Decidable (IsCommonSubstring s a b) :=
  inferInstanceAs (Decidable (s.IsInfix a ∧ s.IsInfix b))

/-! Lemmas about the affix helpers. -/

theorem mismatchIdx_comm (a b : List Sym) : mismatchIdx a b = mismatchIdx b a := by
  induction a generalizing b with
  | nil => cases b <;> simp [mismatchIdx]
  | cons x xs ih =>
      cases b with
      | nil => simp [mismatchIdx]
      | cons y ys =>
          simp only [mismatchIdx, ne_comm (a := x) (b := y)]
          rcases eq_or_ne y x with h | h
          · subst h; simp [ih]
          · simp [h]

theorem mismatchIdx_take (a b : List Sym) (i : Nat) (h : mismatchIdx a b = some i) :
    a.take i = b.take i := by
  induction a generalizing b i with
  | nil => simp [mismatchIdx] at h
  | cons x xs ih =>
      cases b with
      | nil => simp [mismatchIdx] at h
      | cons y ys =>
          by_cases hxy : x = y
          · subst hxy
            rw [mismatchIdx, if_neg (by simp)] at h
            rcases Option.map_eq_some'.mp h with ⟨j, hj, rfl⟩
            simp [List.take_succ_cons, ih ys j hj]
          · rw [mismatchIdx, if_pos hxy] at h
            cases h
            simp

theorem findCommonPrefix_comm (a b : List Sym) :
    findCommonPrefix a b = findCommonPrefix b a := by
  unfold findCommonPrefix
  rw [mismatchIdx_comm]
  cases h : mismatchIdx b a with
  | none => rfl
  | some i =>
      have := mismatchIdx_take b a i h
      simp [this]

theorem findCommonPrefix_prefix_left (a b : List Sym) :
    (findCommonPrefix a b).IsPrefix a := by
  unfold findCommonPrefix
  cases h : mismatchIdx a b with
  | none => exact List.nil_prefix
  | some i => exact List.take_prefix i a

theorem findCommonPrefix_prefix_right (a b : List Sym) :
    (findCommonPrefix a b).IsPrefix b := by
  rw [findCommonPrefix_comm]
  exact findCommonPrefix_prefix_left b a

theorem findCommonSuffix_comm (a b : List Sym) :
    findCommonSuffix a b = findCommonSuffix b a := by
  unfold findCommonSuffix
  rw [mismatchIdx_comm]
  cases h : mismatchIdx b.reverse a.reverse with
  | none => rfl
  | some i =>
      have := mismatchIdx_take b.reverse a.reverse i h
      simp [this]

theorem findCommonSuffix_suffix_left (a b : List Sym) :
    (findCommonSuffix a b).IsSuffix a := by
  unfold findCommonSuffix
  cases h : mismatchIdx a.reverse b.reverse with
  | none => exact List.nil_suffix
  | some i =>
      have h1 : (a.reverse.take i).IsPrefix a.reverse := List.take_prefix i a.reverse
      exact List.reverse_prefix.mp (by simpa using h1)

theorem findCommonSuffix_suffix_right (a b : List Sym) :
    (findCommonSuffix a b).IsSuffix b := by
  rw [findCommonSuffix_comm]
  exact findCommonSuffix_suffix_left b a

/-- Claim C10: `findCommonPrefix` and `findCommonSuffix` are commutative in
their arguments, and whenever the result is non-empty it is a prefix
(respectively suffix) of both inputs.  (The result is in fact an affix of both
inputs even when empty.) -/
theorem c10_affix_helpers_commutative (a b : List Sym) :
    findCommonPrefix a b = findCommonPrefix b a ∧
    findCommonSuffix a b = findCommonSuffix b a ∧
    (findCommonPrefix a b ≠ [] →
      (findCommonPrefix a b).IsPrefix a ∧ (findCommonPrefix a b).IsPrefix b) ∧
    (findCommonSuffix a b ≠ [] →
      (findCommonSuffix a b).IsSuffix a ∧ (findCommonSuffix a b).IsSuffix b) :=
  ⟨findCommonPrefix_comm a b, findCommonSuffix_comm a b,
    fun _ => ⟨findCommonPrefix_prefix_left a b, findCommonPrefix_prefix_right a b⟩,
    fun _ => ⟨findCommonSuffix_suffix_left a b, findCommonSuffix_suffix_right a b⟩⟩

/-- The cleanup leaves scripts of fewer than three edits untouched, for any
fuel. -/
theorem MergeShiftDiffCleanup_short (f : Nat) (d : Differ) (h : d.Edits.length < 3) :
    MergeShiftDiffCleanup f d = d := by
  cases f with
  | zero => rfl
  | succ n => rw [MergeShiftDiffCleanup]; exact if_pos h

/-- Equal inputs take the first fast path of `OptimizedDiff`: one retain of
the whole old sequence. -/
theorem OptimizedDiff_self (s : List Sym) :
    OptimizedDiff (New s s) = { New s s with Edits := [⟨EditRetain, s⟩] } := by
  rw [OptimizedDiff]
  simp [New]

/-- Claim C4, counterexample: `Diff("","")` does not yield the empty script;
it yields one `Retain` edit with empty data (the equal-inputs fast path
appends `Retain(old)` even when `old` is empty, and the cleanup returns
scripts of fewer than three edits unchanged). -/
theorem c4_identity_counterexample :
    (DiffRun (New [] [])).Edits = [⟨EditRetain, []⟩] ∧
      (DiffRun (New [] [])).Edits ≠ [] := by
  constructor
  · decide
  · decide

/-- Claim C4 as amended: for every string `s`, `Diff(s, s)` yields exactly one
`Retain` edit whose data is all of `s` (so empty when `s` is empty, rather
than no edit at all), and the inline rendering of `Diff("","")` is the empty
string. -/
theorem c4_identity_amended (s : List Sym) :
    (DiffRun (New s s)).Edits = [⟨EditRetain, s⟩] ∧
      DifferString (DiffRun (New [] [])) = [] := by
  refine ⟨?_, by decide⟩
  unfold DiffRun
  rw [OptimizedDiff_self, MergeShiftDiffCleanup_short _ _ (by simp)]

/-- Claim C3, evaluated at the failing input `old = ""`, `new = ""`: the final
script of the full pipeline contains an edit whose data is empty (the whole
script is one empty `Retain`), contradicting the no-empty-edit postcondition. -/
theorem c3_no_empty_edit_failing_input :
    (DiffRun (New [] [])).Edits = [⟨EditRetain, []⟩] ∧
      ¬ (∀ e ∈ (DiffRun (New [] [])).Edits, e.Data ≠ []) := by
  refine ⟨by decide, ?_⟩
  intro h
  exact h ⟨EditRetain, []⟩ (by decide) rfl

/-- Claim C9: the line-diff of `"Header\nBody\nFooter"` against
`"Header\n\nFooter"` renders exactly `" Header\n-Body\n+\n Footer"`, and the
shared line-to-symbol map built before diffing assigns the four distinct lines
the four distinct synthetic symbols 0..3 (identical lines collapse to the same
symbol). -/
theorem c9_line_rendering_scenario :
    (LineDiff (New (strSyms "Header\nBody\nFooter") (strSyms "Header\n\nFooter"))).1 =
      strSyms " Header\n-Body\n+\n Footer" ∧
    (buildLineMap (splitLines (strSyms "Header\n\nFooter"))
        (buildLineMap (splitLines (strSyms "Header\nBody\nFooter")) [] 0).1
        (buildLineMap (splitLines (strSyms "Header\nBody\nFooter")) [] 0).2).1 =
      [(strSyms "Header", 0), (strSyms "Body", 1), (strSyms "Footer", 2), ([], 3)] := by
  constructor
  · decide
  · decide

/-! Lemmas about `findCommonSubstring` (claim C5). -/

theorem isCommonSubstring_comm (s a b : List Sym) (h : IsCommonSubstring s a b) :
    IsCommonSubstring s b a :=
  ⟨h.2, h.1⟩

theorem infix_iff_slice (s a : List Sym) :
    s.IsInfix a ↔ ∃ i, i + s.length ≤ a.length ∧ (a.drop i).take s.length = s := by
  constructor
  · rintro ⟨t, u, rfl⟩
    refine ⟨t.length, by simp, ?_⟩
    simp [List.drop_append_of_le_length, List.take_append_of_le_length]
  · rintro ⟨i, hlen, hslice⟩
    refine ⟨a.take i, (a.drop i).drop s.length, ?_⟩
    calc a.take i ++ s ++ (a.drop i).drop s.length
        = a.take i ++ ((a.drop i).take s.length ++ (a.drop i).drop s.length) := by
          rw [hslice, List.append_assoc]
      _ = a := by rw [List.take_append_drop, List.take_append_drop]

theorem infix_take (s a : List Sym) (n : Nat) (h : s.IsInfix a) : (s.take n).IsInfix a :=
  ((s.take_prefix n).isInfix).trans h

/-- Soundness of the inner double loop: a found value is a common substring of
exact length `len`. -/
theorem fcsInner_sound (a b : List Sym) (len : Nat) (s : List Sym)
    (hla : len ≤ a.length) (hlb : len ≤ b.length) (h : fcsInner a b len = some s) :
    s.length = len ∧ IsCommonSubstring s a b := by
  rcases List.exists_of_findSome?_eq_some h with ⟨i, hi, h2⟩
  rcases List.exists_of_findSome?_eq_some h2 with ⟨j, hj, h3⟩
  simp only [List.mem_range] at hi hj
  by_cases heq : (a.drop i).take len = (b.drop j).take len
  · rw [if_pos heq] at h3
    cases h3
    have hia : i + len ≤ a.length := by omega
    have hjb : j + len ≤ b.length := by omega
    have hlen : ((a.drop i).take len).length = len := by
      simp [List.length_take, List.length_drop]
      omega
    refine ⟨hlen, ?_, ?_⟩
    · rw [infix_iff_slice]
      exact ⟨i, by omega, by rw [hlen]⟩
    · rw [infix_iff_slice]
      refine ⟨j, by omega, ?_⟩
      rw [hlen, heq]
  · rw [if_neg heq] at h3
    cases h3

/-- Completeness of the inner double loop: when a common substring of length
`len` exists, the loop finds one. -/
theorem fcsInner_isSome (a b : List Sym) (len : Nat) (s : List Sym)
    (hs : s.length = len) (hc : IsCommonSubstring s a b) :
    fcsInner a b len ≠ none := by
  rcases (infix_iff_slice s a).mp hc.1 with ⟨i, hia, hsa⟩
  rcases (infix_iff_slice s b).mp hc.2 with ⟨j, hjb, hsb⟩
  intro hnone
  rw [fcsInner, List.findSome?_eq_none_iff] at hnone
  have h1 := hnone i (by simp; omega)
  rw [List.findSome?_eq_none_iff] at h1
  have h2 := h1 j (by simp; omega)
  rw [hs] at hsa hsb
  rw [hsa, hsb] at h2
  simp at h2

/-- A decomposition of `List.range n` around one element determines that
element and the part before it. -/
theorem range_eq_append_cons (n x : Nat) (l₁ l₂ : List Nat)
    (h : List.range n = l₁ ++ x :: l₂) :
    x = l₁.length ∧ l₁.length < n ∧ l₁ = List.range l₁.length := by
  have hn : n = l₁.length + (l₂.length + 1) := by
    have := congrArg List.length h
    simp at this
    omega
  have hlt : l₁.length < n := by omega
  have hx : x = l₁.length := by
    have h1 : (List.range n)[l₁.length]? = some l₁.length := by
      simp [List.getElem?_range hlt]
    rw [h] at h1
    rw [List.getElem?_append_right (Nat.le_refl _)] at h1
    simp at h1
    omega
  have hl : l₁ = List.range l₁.length := by
    have h1 : (List.range n).take l₁.length = l₁ := by
      rw [h, List.take_append_of_le_length (Nat.le_refl _), List.take_length]
    rw [List.take_range] at h1
    have hmin : l₁.length ⊓ n = l₁.length := min_eq_left (Nat.le_of_lt hlt)
    rw [hmin] at h1
    exact h1.symm
  exact ⟨hx, hlt, hl⟩

/-- Soundness and maximality of the outer search loop: a found value is a
common substring, at least half the longer input long, and no common
substring is longer. -/
theorem fcsSearch_sound (a b : List Sym) (hba : b.length ≤ a.length) (s : List Sym)
    (h : fcsSearch a b = some s) :
    IsCommonSubstring s a b ∧ (a.length + 1) / 2 ≤ s.length ∧
      ∀ t, IsCommonSubstring t a b → t.length ≤ s.length := by
  rw [fcsSearch, List.findSome?_eq_some_iff] at h
  rcases h with ⟨l₁, dl, l₂, hsplit, hfound, hbefore⟩
  rcases range_eq_append_cons _ dl l₁ l₂ hsplit with ⟨hdl, hlt, hl₁⟩
  subst hdl
  have hbound : l₁.length + (a.length + 1) / 2 ≤ b.length := by omega
  have hlen : b.length - l₁.length ≤ b.length := by omega
  have hlena : b.length - l₁.length ≤ a.length := by omega
  rcases fcsInner_sound a b _ s hlena hlen hfound with ⟨hslen, hcomm⟩
  refine ⟨hcomm, by omega, ?_⟩
  intro t ht
  by_contra hgt
  push_neg at hgt
  have htb : t.length ≤ b.length := ht.2.length_le
  have hdl2 : b.length - t.length ∈ l₁ := by
    rw [hl₁, List.mem_range]
    omega
  have hnone := hbefore _ hdl2
  have : b.length - (b.length - t.length) = t.length := by omega
  rw [this] at hnone
  exact fcsInner_isSome a b t.length t rfl ht hnone

/-- When the outer search finds nothing, every common substring is shorter
than half the longer input. -/
theorem fcsSearch_none (a b : List Sym) (hba : b.length ≤ a.length)
    (hmb : (a.length + 1) / 2 ≤ b.length) (h : fcsSearch a b = none) :
    ∀ t, IsCommonSubstring t a b → t.length < (a.length + 1) / 2 := by
  intro t ht
  by_contra hge
  push_neg at hge
  have htb : t.length ≤ b.length := ht.2.length_le
  rw [fcsSearch, List.findSome?_eq_none_iff] at h
  have hmem : b.length - t.length ∈ List.range (b.length + 1 - (a.length + 1) / 2) := by
    rw [List.mem_range]
    omega
  have hnone := h _ hmem
  have : b.length - (b.length - t.length) = t.length := by omega
  rw [this] at hnone
  exact fcsInner_isSome a b t.length t rfl ht hnone

/-- The two clauses of the (amended) common-substring specification in the
normalised case where `b` is no longer than `a`. -/
theorem findCommonSubstring_spec_ge (a b : List Sym) (hba : b.length ≤ a.length) :
    ((∃ s, IsCommonSubstring s a b ∧ (a.length + 1) / 2 ≤ s.length) →
      IsCommonSubstring (findCommonSubstring a b) a b ∧
        (a.length + 1) / 2 ≤ (findCommonSubstring a b).length ∧
        ∀ t, IsCommonSubstring t a b → t.length ≤ (findCommonSubstring a b).length) ∧
    ((¬ ∃ s, IsCommonSubstring s a b ∧ (a.length + 1) / 2 ≤ s.length) →
      findCommonSubstring a b = []) := by
  have hnlt : ¬ a.length < b.length := by omega
  have hdef : findCommonSubstring a b =
      (if (a.length + 1) / 2 ≤ b.length then
        match fcsSearch a b with
        | some s => s
        | none => []
      else []) := by
    rw [findCommonSubstring]
    simp [hnlt]
  by_cases hm : (a.length + 1) / 2 ≤ b.length
  · rw [if_pos hm] at hdef
    cases hs : fcsSearch a b with
    | some s =>
        rw [hs] at hdef
        rcases fcsSearch_sound a b hba s hs with ⟨hc, hlen, hmax⟩
        rw [hdef]
        exact ⟨fun _ => ⟨hc, hlen, hmax⟩, fun hno => absurd ⟨s, hc, hlen⟩ hno⟩
    | none =>
        rw [hs] at hdef
        have hnone := fcsSearch_none a b hba hm hs
        refine ⟨?_, fun _ => hdef⟩
        rintro ⟨s, hc, hlen⟩
        exact absurd hlen (by have := hnone s hc; omega)
  · rw [if_neg hm] at hdef
    refine ⟨?_, fun _ => hdef⟩
    rintro ⟨s, hc, hlen⟩
    have : s.length ≤ b.length := hc.2.length_le
    omega

/-- With a strictly shorter first argument the swap makes both argument
orders normalise to the same search (for equal lengths the two orders may
return different, equally long, results). -/
theorem findCommonSubstring_comm_of_lt (a b : List Sym) (h : a.length < b.length) :
    findCommonSubstring a b = findCommonSubstring b a := by
  rw [findCommonSubstring, findCommonSubstring]
  simp [if_pos h, if_neg (by omega : ¬ b.length < a.length)]

/-- Claim C5, counterexample to the stated threshold: for `a = "ab"` and
`b = "axxx"`, the common substring `"a"` has length `1 ≥ ⌈min(|a|,|b|)/2⌉ = 1`,
yet `findCommonSubstring` returns the empty result (the code's threshold is
half the longer input, not half the shorter). -/
theorem c5_threshold_counterexample :
    IsCommonSubstring [97] (strSyms "ab") (strSyms "axxx") ∧
      (min (strSyms "ab").length (strSyms "axxx").length + 1) / 2 ≤ ([97] : List Sym).length ∧
      findCommonSubstring (strSyms "ab") (strSyms "axxx") = [] := by
  refine ⟨⟨⟨[], [98], rfl⟩, ⟨[], [120, 120, 120], rfl⟩⟩, by decide, by decide⟩

/-- Claim C5 as amended: `findCommonSubstring(a, b)` returns a longest
substring common to both whenever one of length at least `⌈max(|a|,|b|)/2⌉`
(half the length of the longer sequence) exists, and returns empty otherwise;
in particular it returns empty on `"substr_is_too_small"` padded with 44 `z`s
against the same prefix padded with 44 `j`s, and returns `"long"` on
`("long", "longer")`. -/
theorem c5_common_substring_threshold_amended (a b : List Sym) :
    ((∃ s, IsCommonSubstring s a b ∧ (max a.length b.length + 1) / 2 ≤ s.length) →
      IsCommonSubstring (findCommonSubstring a b) a b ∧
        (max a.length b.length + 1) / 2 ≤ (findCommonSubstring a b).length ∧
        ∀ t, IsCommonSubstring t a b → t.length ≤ (findCommonSubstring a b).length) ∧
    ((¬ ∃ s, IsCommonSubstring s a b ∧ (max a.length b.length + 1) / 2 ≤ s.length) →
      findCommonSubstring a b = []) ∧
    findCommonSubstring (strSyms "substr_is_too_small" ++ List.replicate 44 122)
        (strSyms "substr_is_too_small" ++ List.replicate 44 106) = [] ∧
    findCommonSubstring (strSyms "long") (strSyms "longer") = strSyms "long" := by
  refine ⟨?_, ?_, by decide, by decide⟩
  · rcases Nat.lt_or_ge a.length b.length with hab | hba
    · rw [max_eq_right (Nat.le_of_lt hab), findCommonSubstring_comm_of_lt a b hab]
      have hab2 : a.length ≤ b.length := Nat.le_of_lt hab
      intro hex
      have hex2 : ∃ s, IsCommonSubstring s b a ∧ (b.length + 1) / 2 ≤ s.length := by
        rcases hex with ⟨s, hc, hl⟩
        exact ⟨s, isCommonSubstring_comm s a b hc, hl⟩
      rcases (findCommonSubstring_spec_ge b a hab2).1 hex2 with ⟨hc, hl, hmax⟩
      exact ⟨isCommonSubstring_comm _ b a hc, hl,
        fun t ht => hmax t (isCommonSubstring_comm t a b ht)⟩
    · rw [max_eq_left hba]
      exact (findCommonSubstring_spec_ge a b hba).1
  · rcases Nat.lt_or_ge a.length b.length with hab | hba
    · rw [max_eq_right (Nat.le_of_lt hab), findCommonSubstring_comm_of_lt a b hab]
      intro hno
      refine (findCommonSubstring_spec_ge b a (Nat.le_of_lt hab)).2 ?_
      rintro ⟨s, hc, hl⟩
      exact hno ⟨s, isCommonSubstring_comm s b a hc, hl⟩
    · rw [max_eq_left hba]
      exact (findCommonSubstring_spec_ge a b hba).2

/-- Witness for the amended C5 at a concrete input: `("long", "longer")` has
the common substring `"long"` of length `4 ≥ ⌈6/2⌉ = 3`, and the returned
value is a longest common substring of the pair. -/
theorem c5_common_substring_threshold_amended_witness :
    IsCommonSubstring (findCommonSubstring (strSyms "long") (strSyms "longer"))
        (strSyms "long") (strSyms "longer") ∧
      (max (strSyms "long").length (strSyms "longer").length + 1) / 2 ≤
        (findCommonSubstring (strSyms "long") (strSyms "longer")).length :=
  ⟨((c5_common_substring_threshold_amended (strSyms "long") (strSyms "longer")).1
      ⟨strSyms "long", by decide, by decide⟩).1,
    ((c5_common_substring_threshold_amended (strSyms "long") (strSyms "longer")).1
      ⟨strSyms "long", by decide, by decide⟩).2.1⟩

/-! Lemmas about `runesIndex` and the sandwich branch (claim C8). -/

/-- A non-negative `runesIndex` result marks a genuine in-range occurrence of
the needle. -/
theorem runesIndex_sound (haystack needle : List Sym) (i : Int)
    (h : runesIndex haystack needle = i) (hpos : 0 ≤ i) :
    i.toNat + needle.length ≤ haystack.length ∧
      (haystack.drop i.toNat).take needle.length = needle := by
  rw [runesIndex] at h
  by_cases hg : 0 < needle.length ∧ needle.length ≤ haystack.length
  · rw [if_pos hg] at h
    cases hfs : (List.range (haystack.length - needle.length + 1)).findSome?
        (fun start =>
          if (haystack.drop start).take needle.length = needle then some start else none) with
    | none =>
        rw [hfs] at h
        simp only [Int.reduceNeg] at h
        exact absurd hpos (by omega)
    | some s =>
        rw [hfs] at h
        have hi : i = (s : Int) := h.symm
        subst hi
        rcases List.exists_of_findSome?_eq_some hfs with ⟨j, hj, hjeq⟩
        simp only [List.mem_range] at hj
        by_cases hsl : (haystack.drop j).take needle.length = needle
        · rw [if_pos hsl] at hjeq
          cases hjeq
          refine ⟨?_, ?_⟩
          · simp only [Int.toNat_natCast]
            omega
          · simpa using hsl
        · rw [if_neg hsl] at hjeq
          cases hjeq
  · rw [if_neg hg] at h
    exact absurd hpos (by omega)

/-- A needle strictly longer than the haystack is never found. -/
theorem runesIndex_longer (haystack needle : List Sym)
    (h : haystack.length < needle.length) : runesIndex haystack needle = -1 := by
  rw [runesIndex, if_neg (by omega)]

/-- Claim C8: on remainders with no common affix, both non-empty and not
equal, a positive `runesIndex` offset produces exactly the three sandwich
edits (delete–retain–delete when the new remainder occurs inside the old at a
positive offset, insert–retain–insert in the symmetric case), the retained
span being exactly the contained remainder. -/
theorem c8_sandwich_case (old new : List Sym)
    (hne : old ≠ new) (hnew : new ≠ []) (hold : old ≠ [])
    (hpfx : findCommonPrefix old new = []) (hsfx : findCommonSuffix old new = []) :
    (0 < runesIndex old new →
      (OptimizedDiff (New old new)).Edits =
        [⟨EditDelete, old.take (runesIndex old new).toNat⟩,
         ⟨EditRetain, (old.drop (runesIndex old new).toNat).take new.length⟩,
         ⟨EditDelete, old.drop ((runesIndex old new).toNat + new.length)⟩] ∧
      (old.drop (runesIndex old new).toNat).take new.length = new) ∧
    (0 < runesIndex new old →
      (OptimizedDiff (New old new)).Edits =
        [⟨EditInsert, new.take (runesIndex new old).toNat⟩,
         ⟨EditRetain, (new.drop (runesIndex new old).toNat).take old.length⟩,
         ⟨EditInsert, new.drop ((runesIndex new old).toNat + old.length)⟩] ∧
      (new.drop (runesIndex new old).toNat).take old.length = old) := by
  constructor
  · intro hx
    obtain ⟨hbound, hslice⟩ := runesIndex_sound old new _ rfl (le_of_lt hx)
    refine ⟨?_, hslice⟩
    rw [OptimizedDiff]
    simp only [New]
    rw [if_neg hne, if_neg hnew, if_neg hold]
    simp only [optimizedMiddle]
    simp only [hpfx, List.length_nil, Nat.lt_irrefl, if_false, List.drop_zero, Nat.sub_zero,
      List.take_length, hsfx]
    rw [if_neg (by simp [List.length_eq_zero, hnew]), if_neg (by simp [List.length_eq_zero, hold]),
      if_pos hx]
    simp
  · intro hy
    obtain ⟨hbound, hslice⟩ := runesIndex_sound new old _ rfl (le_of_lt hy)
    have hlen : old.length < new.length := by
      have h1 : (1 : Int) ≤ runesIndex new old := hy
      have h2 : 1 ≤ (runesIndex new old).toNat := by omega
      omega
    have hxneg : ¬ (0 : Int) < runesIndex old new := by
      rw [runesIndex_longer old new hlen]
      omega
    refine ⟨?_, hslice⟩
    rw [OptimizedDiff]
    simp only [New]
    rw [if_neg hne, if_neg hnew, if_neg hold]
    simp only [optimizedMiddle]
    simp only [hpfx, List.length_nil, Nat.lt_irrefl, if_false, List.drop_zero, Nat.sub_zero,
      List.take_length, hsfx]
    rw [if_neg (by simp [List.length_eq_zero, hnew]), if_neg (by simp [List.length_eq_zero, hold]),
      if_neg hxneg, if_pos hy]
    simp

/-- Witness for C8 at a concrete input: for `old = "aba"`, `new = "b"` the new
remainder occurs inside the old one at offset 1, and `OptimizedDiff` emits
exactly `Delete "a", Retain "b", Delete "a"`. -/
theorem c8_sandwich_case_witness :
    (OptimizedDiff (New (strSyms "aba") (strSyms "b"))).Edits =
      [⟨EditDelete, (strSyms "aba").take (runesIndex (strSyms "aba") (strSyms "b")).toNat⟩,
       ⟨EditRetain, ((strSyms "aba").drop (runesIndex (strSyms "aba") (strSyms "b")).toNat).take
          (strSyms "b").length⟩,
       ⟨EditDelete, (strSyms "aba").drop
          ((runesIndex (strSyms "aba") (strSyms "b")).toNat + (strSyms "b").length)⟩] :=
  ((c8_sandwich_case (strSyms "aba") (strSyms "b") (by decide) (by decide) (by decide)
      (by decide) (by decide)).1 (by decide)).1

/-! Frame lemmas (claim C7). -/

/-- The solver leaves every field but `Edits` unchanged and only appends. -/
theorem AlgorithmDiff_frame (d : Differ) :
    (AlgorithmDiff d).Old = d.Old ∧ (AlgorithmDiff d).New = d.New ∧
      (AlgorithmDiff d).OldStr = d.OldStr ∧ (AlgorithmDiff d).NewStr = d.NewStr ∧
      ∃ t, (AlgorithmDiff d).Edits = d.Edits ++ t := by
  rw [AlgorithmDiff]
  split_ifs
  · exact ⟨rfl, rfl, rfl, rfl, [], by simp⟩
  · exact ⟨rfl, rfl, rfl, rfl, _, rfl⟩
  · exact ⟨rfl, rfl, rfl, rfl, _, rfl⟩
  · exact ⟨rfl, rfl, rfl, rfl, _, rfl⟩
  · exact ⟨rfl, rfl, rfl, rfl, _, rfl⟩

/-- The solver's output edit list starts with the edits it was given: one
leading edit passes through unchanged. -/
theorem AlgorithmDiff_edits_cons (e : Edit) (eds : List Edit)
    (old new oldStr newStr : List Sym) :
    (AlgorithmDiff ⟨e :: eds, old, new, oldStr, newStr⟩).Edits =
      e :: (AlgorithmDiff ⟨eds, old, new, oldStr, newStr⟩).Edits := by
  simp only [AlgorithmDiff]
  split_ifs <;> simp

/-- The splitter recursion likewise passes a leading edit through unchanged:
it only appends to the edit list it was given. -/
theorem optimizedRecurse_edits_cons (fuel : Nat) :
    ∀ (e : Edit) (eds : List Edit) (old new oldStr newStr : List Sym),
      (optimizedRecurse fuel ⟨e :: eds, old, new, oldStr, newStr⟩).Edits =
        e :: (optimizedRecurse fuel ⟨eds, old, new, oldStr, newStr⟩).Edits := by
  induction fuel with
  | zero => intros; simp [optimizedRecurse]
  | succ fuel ih =>
      intro e eds old new oldStr newStr
      simp only [optimizedRecurse]
      split_ifs
      · exact AlgorithmDiff_edits_cons e eds old new oldStr newStr
      · simp [ih, List.cons_append]

/-- The splitter recursion leaves every field but `Edits` unchanged. -/
theorem optimizedRecurse_fields (fuel : Nat) (d : Differ) :
    (optimizedRecurse fuel d).Old = d.Old ∧ (optimizedRecurse fuel d).New = d.New ∧
      (optimizedRecurse fuel d).OldStr = d.OldStr ∧
      (optimizedRecurse fuel d).NewStr = d.NewStr := by
  cases fuel with
  | zero => exact ⟨rfl, rfl, rfl, rfl⟩
  | succ fuel =>
      rw [optimizedRecurse]
      split_ifs
      · rcases AlgorithmDiff_frame d with ⟨h1, h2, h3, h4, _⟩
        exact ⟨h1, h2, h3, h4⟩
      · exact ⟨rfl, rfl, rfl, rfl⟩

/-- The trimmed middle of `OptimizedDiff` passes a leading edit through
unchanged. -/
theorem optimizedMiddle_cons (e : Edit) (eds : List Edit)
    (old new oldStr newStr : List Sym) :
    optimizedMiddle ⟨e :: eds, old, new, oldStr, newStr⟩ =
      e :: optimizedMiddle ⟨eds, old, new, oldStr, newStr⟩ := by
  simp only [optimizedMiddle]
  split_ifs <;> simp [optimizedRecurse_edits_cons, List.cons_append]

/-- `OptimizedDiff` passes a leading edit through unchanged. -/
theorem OptimizedDiff_edits_cons (e : Edit) (eds : List Edit)
    (old new oldStr newStr : List Sym) :
    (OptimizedDiff ⟨e :: eds, old, new, oldStr, newStr⟩).Edits =
      e :: (OptimizedDiff ⟨eds, old, new, oldStr, newStr⟩).Edits := by
  simp only [OptimizedDiff]
  split_ifs <;> simp [optimizedMiddle_cons]

/-- `OptimizedDiff` leaves every field but `Edits` unchanged. -/
theorem OptimizedDiff_fields (d : Differ) :
    (OptimizedDiff d).Old = d.Old ∧ (OptimizedDiff d).New = d.New ∧
      (OptimizedDiff d).OldStr = d.OldStr ∧ (OptimizedDiff d).NewStr = d.NewStr := by
  rw [OptimizedDiff]
  split_ifs <;> exact ⟨rfl, rfl, rfl, rfl⟩

/-- `OptimizedDiff` only appends to the edit list it is given. -/
theorem OptimizedDiff_edits_append (eds : List Edit) (old new oldStr newStr : List Sym) :
    ∃ t, (OptimizedDiff ⟨eds, old, new, oldStr, newStr⟩).Edits = eds ++ t := by
  induction eds with
  | nil => exact ⟨(OptimizedDiff ⟨[], old, new, oldStr, newStr⟩).Edits, by simp⟩
  | cons e es ihe =>
      rcases ihe with ⟨t, ht⟩
      exact ⟨t, by rw [OptimizedDiff_edits_cons, ht]; simp⟩

/-- `OptimizedDiff` leaves every field but `Edits` unchanged and only
appends. -/
theorem OptimizedDiff_frame (d : Differ) :
    (OptimizedDiff d).Old = d.Old ∧ (OptimizedDiff d).New = d.New ∧
      (OptimizedDiff d).OldStr = d.OldStr ∧ (OptimizedDiff d).NewStr = d.NewStr ∧
      ∃ t, (OptimizedDiff d).Edits = d.Edits ++ t := by
  rcases OptimizedDiff_fields d with ⟨h1, h2, h3, h4⟩
  refine ⟨h1, h2, h3, h4, ?_⟩
  obtain ⟨E, O, N, OS, NS⟩ := d
  exact OptimizedDiff_edits_append E O N OS NS

/-- The cleanup leaves every field but `Edits` unchanged (the edit list is
replaced wholesale). -/
theorem MergeShiftDiffCleanup_frame (fuel : Nat) (d : Differ) :
    (MergeShiftDiffCleanup fuel d).Old = d.Old ∧
      (MergeShiftDiffCleanup fuel d).New = d.New ∧
      (MergeShiftDiffCleanup fuel d).OldStr = d.OldStr ∧
      (MergeShiftDiffCleanup fuel d).NewStr = d.NewStr := by
  induction fuel generalizing d with
  | zero => exact ⟨rfl, rfl, rfl, rfl⟩
  | succ fuel ih =>
      by_cases h : d.Edits.length < 3
      · rw [MergeShiftDiffCleanup, if_pos h]
        exact ⟨rfl, rfl, rfl, rfl⟩
      · rw [MergeShiftDiffCleanup_succ fuel d h]
        by_cases hs : (cleanupRound d).2
        · rw [if_pos hs]
          exact ih { d with Edits := (cleanupRound d).1 }
        · rw [if_neg hs]
          exact ⟨rfl, rfl, rfl, rfl⟩

/-- `LineDiff` leaves every field of the differ but `Edits` unchanged. -/
theorem LineDiff_frame (d : Differ) :
    (LineDiff d).2.Old = d.Old ∧ (LineDiff d).2.New = d.New ∧
      (LineDiff d).2.OldStr = d.OldStr ∧ (LineDiff d).2.NewStr = d.NewStr := by
  rw [LineDiff]
  split_ifs
  all_goals exact ⟨rfl, rfl, rfl, rfl⟩

/-- Claim C7: every pipeline operation (`OptimizedDiff`, `AlgorithmDiff`,
`MergeShiftDiffCleanup`, `LineDiff`) leaves the `Old` and `New` symbol
sequences and the `OldStr`/`NewStr` strings unchanged; only `Edits` changes,
and for the two diff passes only by appending (the cleanup and `LineDiff`
replace the edit list wholesale). -/
theorem c7_frame (d : Differ) (fuel : Nat) :
    ((OptimizedDiff d).Old = d.Old ∧ (OptimizedDiff d).New = d.New ∧
      (OptimizedDiff d).OldStr = d.OldStr ∧ (OptimizedDiff d).NewStr = d.NewStr ∧
      ∃ t, (OptimizedDiff d).Edits = d.Edits ++ t) ∧
    ((AlgorithmDiff d).Old = d.Old ∧ (AlgorithmDiff d).New = d.New ∧
      (AlgorithmDiff d).OldStr = d.OldStr ∧ (AlgorithmDiff d).NewStr = d.NewStr ∧
      ∃ t, (AlgorithmDiff d).Edits = d.Edits ++ t) ∧
    ((MergeShiftDiffCleanup fuel d).Old = d.Old ∧
      (MergeShiftDiffCleanup fuel d).New = d.New ∧
      (MergeShiftDiffCleanup fuel d).OldStr = d.OldStr ∧
      (MergeShiftDiffCleanup fuel d).NewStr = d.NewStr) ∧
    ((LineDiff d).2.Old = d.Old ∧ (LineDiff d).2.New = d.New ∧
      (LineDiff d).2.OldStr = d.OldStr ∧ (LineDiff d).2.NewStr = d.NewStr) :=
  ⟨OptimizedDiff_frame d, AlgorithmDiff_frame d, MergeShiftDiffCleanup_frame fuel d,
    LineDiff_frame d⟩

/-- Witness for C10 at a concrete input with non-empty results:
`a = [5,1,2,7]`, `b = [5,9,2,7]` share the prefix `[5]` and the suffix `[2,7]`. -/
theorem c10_affix_helpers_commutative_witness :
    findCommonPrefix [5, 1, 2, 7] [5, 9, 2, 7] = findCommonPrefix [5, 9, 2, 7] [5, 1, 2, 7] ∧
    (findCommonPrefix [5, 1, 2, 7] [5, 9, 2, 7]).IsPrefix [5, 1, 2, 7] ∧
    (findCommonSuffix [5, 1, 2, 7] [5, 9, 2, 7]).IsSuffix [5, 9, 2, 7] :=
  ⟨(c10_affix_helpers_commutative [5, 1, 2, 7] [5, 9, 2, 7]).1,
    ((c10_affix_helpers_commutative [5, 1, 2, 7] [5, 9, 2, 7]).2.2.1 (by decide)).1,
    ((c10_affix_helpers_commutative [5, 1, 2, 7] [5, 9, 2, 7]).2.2.2 (by decide)).2⟩


/-! Lemmas for the cleanup termination argument (C6): conservation and
decrease of the measure `length + 2 * nonRetainSymCount` through the merge,
strip and shift phases of a cleanup round. -/

theorem nrc_nil : nonRetainSymCount [] = 0 := rfl

theorem nrc_cons (e : Edit) (es : List Edit) :
    nonRetainSymCount (e :: es) =
      (if e.Kind = EditRetain then 0 else e.Data.length) + nonRetainSymCount es := by
  simp [nonRetainSymCount]

theorem nrc_append (a b : List Edit) :
    nonRetainSymCount (a ++ b) = nonRetainSymCount a + nonRetainSymCount b := by
  simp [nonRetainSymCount]

theorem nrc_cons_ret (d : List Sym) (es : List Edit) :
    nonRetainSymCount ((⟨EditRetain, d⟩ : Edit) :: es) = nonRetainSymCount es := by
  simp [nonRetainSymCount]

theorem nrc_cons_del (d : List Sym) (es : List Edit) :
    nonRetainSymCount ((⟨EditDelete, d⟩ : Edit) :: es) =
      d.length + nonRetainSymCount es := by
  simp [nonRetainSymCount, EditDelete, EditRetain]

theorem nrc_cons_ins (d : List Sym) (es : List Edit) :
    nonRetainSymCount ((⟨EditInsert, d⟩ : Edit) :: es) =
      d.length + nonRetainSymCount es := by
  simp [nonRetainSymCount, EditInsert, EditRetain]

theorem nrc_dropLast (es : List Edit) (h : es ≠ []) :
    nonRetainSymCount es = nonRetainSymCount es.dropLast +
      (if (es.getLast h).Kind = EditRetain then 0 else (es.getLast h).Data.length) := by
  conv_lhs => rw [← List.dropLast_append_getLast h]
  simp [nonRetainSymCount]

theorem runesHaveSuffix_le (a b : List Sym) (h : runesHaveSuffix a b = true) :
    b.length ≤ a.length := by
  rcases le_or_lt b.length a.length with hle | hlt
  · exact hle
  · rw [runesHaveSuffix] at h; simp [hlt] at h

theorem runesHavePrefix_le (a b : List Sym) (h : runesHavePrefix a b = true) :
    b.length ≤ a.length := by
  rcases le_or_lt b.length a.length with hle | hlt
  · exact hle
  · rw [runesHavePrefix] at h; simp [hlt] at h

theorem getLast?_cons_append_cons (a x : Edit) (l m : List Edit) :
    (a :: (l ++ (x :: m))).getLast? = (x :: m).getLast? := by
  have h1 : a :: (l ++ (x :: m)) = (a :: l) ++ (x :: m) := by simp
  rw [h1, List.getLast?_append]
  obtain ⟨y, hy⟩ : ∃ y, (x :: m).getLast? = some y :=
    ⟨(x :: m).getLast (by simp), List.getLast?_eq_getLast _ _⟩
  rw [hy]
  rfl

theorem edit_eta_ret (e : Edit) (h : e.Kind = EditRetain) :
    e = (⟨EditRetain, e.Data⟩ : Edit) := by
  obtain ⟨k, dt⟩ := e
  simp only at h
  rw [h]

theorem growLastData_length (res : List Edit) (x : List Sym) :
    (growLastData res x).length = res.length := by
  unfold growLastData
  cases hl : res.getLast? with
  | none => rfl
  | some last =>
      have hne : res ≠ [] := by
        intro he; subst he; simp at hl
      simp [List.length_dropLast, Nat.sub_add_cancel (List.length_pos.mpr hne)]

theorem growLastData_nrc (res : List Edit) (x : List Sym)
    (h : ∀ e ∈ res.getLast?, e.Kind = EditRetain) :
    nonRetainSymCount (growLastData res x) = nonRetainSymCount res := by
  unfold growLastData
  cases hl : res.getLast? with
  | none => rfl
  | some last =>
      have hne : res ≠ [] := by
        intro he; subst he; simp at hl
      have hk : last.Kind = EditRetain := h last (by simp [hl])
      have hgl : res.getLast hne = last := by
        have := List.getLast?_eq_getLast res hne
        rw [hl] at this; exact (Option.some_inj.mp this).symm
      conv_rhs => rw [← List.dropLast_append_getLast hne]
      rw [nrc_append, nrc_append, hgl]
      simp [nonRetainSymCount, hk]

theorem growLastData_cons_struct (hd : Edit) (tail : List Edit) (x : List Sym) :
    (tail = [] ∧ growLastData (hd :: tail) x = [⟨hd.Kind, hd.Data ++ x⟩]) ∨
    (tail ≠ [] ∧ growLastData (hd :: tail) x = hd :: growLastData tail x) := by
  cases tail with
  | nil => exact Or.inl ⟨rfl, by simp [growLastData]⟩
  | cons b bs =>
      refine Or.inr ⟨by simp, ?_⟩
      unfold growLastData
      rw [List.getLast?_cons_cons]
      cases hl : (b :: bs).getLast? with
      | none => simp at hl
      | some last => simp

theorem shiftLoop_arr_length (n : Nat) : ∀ i res arr s,
    ((shiftLoop n i res arr s).2.1).length = arr.length := by
  induction n with
  | zero => intro i res arr s; rfl
  | succ n ih =>
      intro i res arr s
      simp only [shiftLoop]
      split_ifs with h1 h2 h3
      · rw [ih]; simp
      · rw [ih]; simp
      · exact ih ..
      · exact ih ..

theorem shiftLoop_res_length_le (n : Nat) : ∀ i res arr s,
    ((shiftLoop n i res arr s).1).length ≤ res.length + n := by
  induction n with
  | zero => intro i res arr s; exact Nat.le_refl _
  | succ n ih =>
      intro i res arr s
      simp only [shiftLoop]
      split_ifs with h1 h2 h3
      · refine (ih ..).trans ?_
        simp only [List.length_append, List.length_dropLast, List.length_singleton]
        omega
      · refine (ih ..).trans ?_
        simp only [List.length_append, List.length_dropLast, List.length_singleton]
        omega
      · refine (ih ..).trans ?_
        simp only [List.length_append, List.length_singleton]
        omega
      · refine (ih ..).trans ?_
        simp only [List.length_append, List.length_singleton]
        omega

theorem shiftLoop_res_length_lt (n : Nat) : ∀ i res arr, res ≠ [] →
    (shiftLoop n i res arr false).2.2 = true →
    ((shiftLoop n i res arr false).1).length + 1 ≤ res.length + n := by
  induction n with
  | zero =>
      intro i res arr hne hs
      exact absurd hs (by simp [shiftLoop])
  | succ n ih =>
      intro i res arr hne hs
      simp only [shiftLoop] at hs ⊢
      split_ifs at hs ⊢ with h1 h2 h3
      · refine (shiftLoop_res_length_le ..).trans_lt ?_
        simp only [List.length_append, List.length_dropLast, List.length_singleton]
        have := List.length_pos.mpr hne
        omega
      · refine (shiftLoop_res_length_le ..).trans_lt ?_
        simp only [List.length_append, List.length_dropLast, List.length_singleton]
        have := List.length_pos.mpr hne
        omega
      · refine (ih (i + 1) (res ++ [arr.getD i default]) arr (by simp) hs).trans ?_
        simp only [List.length_append, List.length_singleton]
        omega
      · refine (ih (i + 1) (res ++ [arr.getD i default]) arr (by simp) hs).trans ?_
        simp only [List.length_append, List.length_singleton]
        omega

theorem shiftLoop_nrc (n : Nat) : ∀ i res arr s, res ≠ [] → i + n + 1 = arr.length →
    nonRetainSymCount (shiftLoop n i res arr s).1 +
      nonRetainSymCount ((shiftLoop n i res arr s).2.1.drop (i + n)) =
    nonRetainSymCount res + nonRetainSymCount (arr.drop i) := by
  induction n with
  | zero =>
      intro i res arr s hne hlen
      simp [shiftLoop]
  | succ n ih =>
      intro i res arr s hne hlen
      have hi : i < arr.length := by omega
      have hi1 : i + 1 < arr.length := by omega
      have hgd : arr.getD i default = arr[i] := List.getD_eq_getElem arr default hi
      have hgd1 : arr.getD (i + 1) default = arr[i + 1] := List.getD_eq_getElem arr default hi1
      have hprev : (res.getLast?).getD default = res.getLast hne := by
        rw [List.getLast?_eq_getLast res hne]; rfl
      have hidx : i + (n + 1) = i + 1 + n := by omega
      simp only [shiftLoop, hgd, hgd1, hprev, hidx]
      split_ifs with h1 h2 h3
      · -- shift right: edit's data ends with prev's data
        rw [ih (i + 1) _ _ true (by simp) (by simp; omega)]
        have harr : (arr.set (i + 1)
              (⟨(arr[i + 1]).Kind, (res.getLast hne).Data ++ (arr[i + 1]).Data⟩ : Edit)).drop
                (i + 1) =
            (⟨(arr[i + 1]).Kind, (res.getLast hne).Data ++ (arr[i + 1]).Data⟩ : Edit) ::
              arr.drop (i + 2) := by
          rw [List.drop_eq_getElem_cons (by simp; omega)]
          congr 1
          · exact List.getElem_set_self _
          · rw [List.drop_set]; simp
        rw [harr, List.drop_eq_getElem_cons hi, List.drop_eq_getElem_cons hi1,
          nrc_append, nrc_cons, nrc_cons, nrc_cons, nrc_cons, nrc_nil,
          nrc_dropLast res hne]
        have hwlen : ((res.getLast hne).Data ++
            (arr[i]).Data.take ((arr[i]).Data.length - (res.getLast hne).Data.length)).length =
            (arr[i]).Data.length := by
          have := runesHaveSuffix_le _ _ h2
          simp [List.length_take]; omega
        simp only [hwlen, h1.1, h1.2, if_true, show i + 1 + 1 = i + 2 from rfl]
        omega
      · -- shift left: edit's data starts with next's data
        rw [ih (i + 1) _ _ true (by simp) (by simp; omega)]
        have harr : (arr.set (i + 1)
              (⟨(arr[i]).Kind,
                (arr[i]).Data.drop (arr[i + 1]).Data.length ++ (arr[i + 1]).Data⟩ : Edit)).drop
                (i + 1) =
            (⟨(arr[i]).Kind,
              (arr[i]).Data.drop (arr[i + 1]).Data.length ++ (arr[i + 1]).Data⟩ : Edit) ::
              arr.drop (i + 2) := by
          rw [List.drop_eq_getElem_cons (by simp; omega)]
          congr 1
          · exact List.getElem_set_self _
          · rw [List.drop_set]; simp
        rw [harr, List.drop_eq_getElem_cons hi, List.drop_eq_getElem_cons hi1,
          nrc_append, nrc_cons, nrc_cons, nrc_cons, nrc_cons, nrc_nil,
          nrc_dropLast res hne]
        have hvlen : ((arr[i]).Data.drop (arr[i + 1]).Data.length ++
            (arr[i + 1]).Data).length = (arr[i]).Data.length := by
          have := runesHavePrefix_le _ _ h3
          simp; omega
        simp only [hvlen, h1.1, h1.2, if_true, show i + 1 + 1 = i + 2 from rfl]
        omega
      · -- no shift, both neighbours retain
        rw [ih (i + 1) _ _ s (by simp) (by omega)]
        rw [List.drop_eq_getElem_cons hi, nrc_append, nrc_cons, nrc_cons, nrc_nil]
        omega
      · -- no shift
        rw [ih (i + 1) _ _ s (by simp) (by omega)]
        rw [List.drop_eq_getElem_cons hi, nrc_append, nrc_cons, nrc_cons, nrc_nil]
        omega

/-- Structure and counting spec of `mergeRetain` when the result so far starts
with a retain and ends with a retain: the output again starts with that head
retain (its data possibly extended), ends with the flushed retain (its data
possibly extended), and every symbol the affix reassignment moves into a
retain's data removes one pending symbol from each of the two runs. -/
theorem mergeRetain_spec (h0 : List Sym) (tail : List Edit) (old new tD tI : List Sym)
    (e : Edit) (he : e.Kind = EditRetain)
    (hlast : ∀ x ∈ ((⟨EditRetain, h0⟩ : Edit) :: tail).getLast?, x.Kind = EditRetain) :
    ∃ ext sfx,
      ((mergeRetain ((⟨EditRetain, h0⟩ : Edit) :: tail) old new tD tI e).1).head? =
        some (⟨EditRetain, h0 ++ ext⟩ : Edit) ∧
      ((mergeRetain ((⟨EditRetain, h0⟩ : Edit) :: tail) old new tD tI e).1).getLast? =
        some (⟨EditRetain, e.Data ++ sfx⟩ : Edit) ∧
      2 ≤ ((mergeRetain ((⟨EditRetain, h0⟩ : Edit) :: tail) old new tD tI e).1).length ∧
      nonRetainSymCount (mergeRetain ((⟨EditRetain, h0⟩ : Edit) :: tail) old new tD tI e).1
          + 2 * ext.length + 2 * sfx.length
        ≤ nonRetainSymCount ((⟨EditRetain, h0⟩ : Edit) :: tail) + tD.length + tI.length := by
  obtain ⟨ek, ed⟩ := e
  simp only [Edit.mk.injEq] at he
  rcases he with rfl
  simp only [mergeRetain]
  by_cases hDI : 0 < tD.length ∧ 0 < tI.length
  · rw [if_pos hDI]
    have hpd : (findCommonPrefix tI tD).length ≤ tD.length :=
      (findCommonPrefix_prefix_right tI tD).length_le
    have hpi : (findCommonPrefix tI tD).length ≤ tI.length :=
      (findCommonPrefix_prefix_left tI tD).length_le
    by_cases hp : 0 < (findCommonPrefix tI tD).length
    · rw [if_pos hp]
      have hnrcG := growLastData_nrc ((⟨EditRetain, h0⟩ : Edit) :: tail)
        (findCommonPrefix tI tD) hlast
      have hsd : (findCommonSuffix (tI.drop (findCommonPrefix tI tD).length)
            (tD.drop (findCommonPrefix tI tD).length)).length ≤
          (tD.drop (findCommonPrefix tI tD).length).length :=
        (findCommonSuffix_suffix_right _ _).length_le
      have hsi : (findCommonSuffix (tI.drop (findCommonPrefix tI tD).length)
            (tD.drop (findCommonPrefix tI tD).length)).length ≤
          (tI.drop (findCommonPrefix tI tD).length).length :=
        (findCommonSuffix_suffix_left _ _).length_le
      simp only [List.length_drop] at hsd hsi
      rcases growLastData_cons_struct (⟨EditRetain, h0⟩ : Edit) tail
          (findCommonPrefix tI tD) with ⟨ht0, hG⟩ | ⟨ht0, hG⟩
      · subst ht0
        rw [hG] at hnrcG
        by_cases hs : 0 < (findCommonSuffix (tI.drop (findCommonPrefix tI tD).length)
            (tD.drop (findCommonPrefix tI tD).length)).length
        · rw [if_pos hs, if_pos hDI.1, if_pos hDI.2, hG]
          refine ⟨findCommonPrefix tI tD,
            findCommonSuffix (tI.drop (findCommonPrefix tI tD).length)
              (tD.drop (findCommonPrefix tI tD).length),
            by simp, by simp [getLast?_cons_append_cons], by simp, ?_⟩
          simp only [nrc_append, nrc_cons_ret, nrc_cons_del, nrc_cons_ins, nrc_nil,
            List.length_take, List.length_drop, List.length_nil] at hnrcG ⊢
          omega
        · rw [if_neg hs, if_pos hDI.1, if_pos hDI.2, hG]
          refine ⟨findCommonPrefix tI tD, [],
            by simp, by simp [getLast?_cons_append_cons], by simp, ?_⟩
          simp only [nrc_append, nrc_cons_ret, nrc_cons_del, nrc_cons_ins, nrc_nil,
            List.length_take, List.length_drop, List.length_nil,
            List.append_nil] at hnrcG ⊢
          omega
      · rw [hG] at hnrcG
        simp only [nrc_cons_ret] at hnrcG
        by_cases hs : 0 < (findCommonSuffix (tI.drop (findCommonPrefix tI tD).length)
            (tD.drop (findCommonPrefix tI tD).length)).length
        · rw [if_pos hs, if_pos hDI.1, if_pos hDI.2, hG]
          refine ⟨[], findCommonSuffix (tI.drop (findCommonPrefix tI tD).length)
              (tD.drop (findCommonPrefix tI tD).length),
            by simp, by simp [getLast?_cons_append_cons], by simp, ?_⟩
          simp only [nrc_append, nrc_cons_ret, nrc_cons_del, nrc_cons_ins, nrc_nil,
            List.length_take, List.length_drop, List.length_nil,
            List.append_nil] at hnrcG ⊢
          omega
        · rw [if_neg hs, if_pos hDI.1, if_pos hDI.2, hG]
          refine ⟨[], [], by simp, by simp [getLast?_cons_append_cons], by simp, ?_⟩
          simp only [nrc_append, nrc_cons_ret, nrc_cons_del, nrc_cons_ins, nrc_nil,
            List.length_take, List.length_drop, List.length_nil,
            List.append_nil] at hnrcG ⊢
          omega
    · rw [if_neg hp]
      have hsd : (findCommonSuffix tI tD).length ≤ tD.length :=
        (findCommonSuffix_suffix_right _ _).length_le
      have hsi : (findCommonSuffix tI tD).length ≤ tI.length :=
        (findCommonSuffix_suffix_left _ _).length_le
      by_cases hs : 0 < (findCommonSuffix tI tD).length
      · rw [if_pos hs, if_pos hDI.1, if_pos hDI.2]
        refine ⟨[], findCommonSuffix tI tD,
          by simp, by simp [getLast?_cons_append_cons], by simp, ?_⟩
        simp only [nrc_append, nrc_cons_ret, nrc_cons_del, nrc_cons_ins, nrc_nil,
          List.length_take, List.length_nil, List.append_nil]
        omega
      · rw [if_neg hs, if_pos hDI.1, if_pos hDI.2]
        refine ⟨[], [], by simp, by simp [getLast?_cons_append_cons], by simp, ?_⟩
        simp only [nrc_append, nrc_cons_ret, nrc_cons_del, nrc_cons_ins, nrc_nil,
          List.length_nil, List.append_nil]
        omega
  · rw [if_neg hDI]
    by_cases hd : 0 < tD.length
    · have hi : ¬ 0 < tI.length := fun hi => hDI ⟨hd, hi⟩
      rw [if_pos hd, if_neg hi]
      refine ⟨[], [], by simp, by simp [getLast?_cons_append_cons], by simp, ?_⟩
      simp only [nrc_append, nrc_cons_ret, nrc_cons_del, nrc_nil,
        List.length_nil, List.append_nil]
      omega
    · rw [if_neg hd]
      by_cases hi : 0 < tI.length
      · rw [if_pos hi]
        refine ⟨[], [], by simp, by simp [getLast?_cons_append_cons], by simp, ?_⟩
        simp only [nrc_append, nrc_cons_ret, nrc_cons_ins, nrc_nil,
          List.length_nil, List.append_nil]
        omega
      · rw [if_neg hi]
        refine ⟨[], [], by simp, by simp [getLast?_cons_append_cons], by simp, ?_⟩
        simp only [nrc_append, nrc_cons_ret, nrc_nil, List.length_nil, List.append_nil]
        omega

/-- One merge step preserves the invariant: the result starts with the input's
head retain (data extended by some `ext`), ends with a retain, and the
weighted count is bounded by the processed budget. -/
theorem mergeStep_inv (d0 : List Sym) (st : MergeState) (B : Nat) (e : Edit)
    (hinv : ∃ ext, st.1.head? = some (⟨EditRetain, d0 ++ ext⟩ : Edit) ∧
      (∀ x ∈ st.1.getLast?, x.Kind = EditRetain) ∧
      nonRetainSymCount st.1 + st.2.2.2.1.length + st.2.2.2.2.length + 2 * ext.length ≤ B) :
    ∃ ext, (mergeStep st e).1.head? = some (⟨EditRetain, d0 ++ ext⟩ : Edit) ∧
      (∀ x ∈ (mergeStep st e).1.getLast?, x.Kind = EditRetain) ∧
      nonRetainSymCount (mergeStep st e).1 + (mergeStep st e).2.2.2.1.length +
          (mergeStep st e).2.2.2.2.length + 2 * ext.length ≤
        B + (if e.Kind = EditRetain then 0 else e.Data.length) := by
  obtain ⟨ext, hh, hl, hb⟩ := hinv
  by_cases hkD : e.Kind = EditDelete
  · have hne : ¬ e.Kind = EditRetain := by rw [hkD]; decide
    rw [mergeStep, if_pos hkD]
    refine ⟨ext, hh, hl, ?_⟩
    rw [if_neg hne]
    have := List.length_take_le (st.2.2.2.1.length + e.Data.length) st.2.1
    simp only [List.length_take] at *
    omega
  · by_cases hkI : e.Kind = EditInsert
    · have hne : ¬ e.Kind = EditRetain := by rw [hkI]; decide
      rw [mergeStep, if_neg hkD, if_pos hkI]
      refine ⟨ext, hh, hl, ?_⟩
      rw [if_neg hne]
      simp only [List.length_take] at *
      omega
    · by_cases hkR : e.Kind = EditRetain
      · rw [mergeStep, if_neg hkD, if_neg hkI, if_pos hkR]
        dsimp only
        cases hst : st.1 with
        | nil => rw [hst] at hh; simp at hh
        | cons a t =>
            rw [hst] at hh hl hb
            simp only [List.head?_cons, Option.some_inj] at hh
            subst hh
            obtain ⟨ext2, sfx2, hh2, hl2, hlen2, hb2⟩ :=
              mergeRetain_spec (d0 ++ ext) t st.2.1 st.2.2.1 st.2.2.2.1 st.2.2.2.2 e hkR hl
            refine ⟨ext ++ ext2, ?_, ?_, ?_⟩
            · rw [← List.append_assoc]
              exact hh2
            · intro x hx
              rw [hl2] at hx
              simp only [Option.mem_def, Option.some_inj] at hx
              subst hx
              rfl
            · rw [if_pos hkR]
              simp only [List.length_append, List.length_nil] at *
              omega
      · rw [mergeStep, if_neg hkD, if_neg hkI, if_neg hkR]
        refine ⟨ext, hh, hl, ?_⟩
        rw [if_neg hkR]
        omega

/-- The fold of merge steps preserves the invariant, with the budget growing
by the non-retain symbols of the processed edits. -/
theorem foldl_mergeStep_inv (d0 : List Sym) : ∀ (l : List Edit) (st : MergeState) (B : Nat),
    (∃ ext, st.1.head? = some (⟨EditRetain, d0 ++ ext⟩ : Edit) ∧
      (∀ x ∈ st.1.getLast?, x.Kind = EditRetain) ∧
      nonRetainSymCount st.1 + st.2.2.2.1.length + st.2.2.2.2.length + 2 * ext.length ≤ B) →
    ∃ ext, (l.foldl mergeStep st).1.head? = some (⟨EditRetain, d0 ++ ext⟩ : Edit) ∧
      (∀ x ∈ (l.foldl mergeStep st).1.getLast?, x.Kind = EditRetain) ∧
      nonRetainSymCount (l.foldl mergeStep st).1 +
          (l.foldl mergeStep st).2.2.2.1.length +
          (l.foldl mergeStep st).2.2.2.2.length + 2 * ext.length ≤
        B + nonRetainSymCount l := by
  intro l
  induction l with
  | nil =>
      intro st B hinv
      simp only [List.foldl_nil, nrc_nil]
      obtain ⟨ext, h1, h2, h3⟩ := hinv
      exact ⟨ext, h1, h2, by omega⟩
  | cons e l ih =>
      intro st B hinv
      obtain ⟨ext, h1, h2, h3⟩ :=
        ih (mergeStep st e) (B + (if e.Kind = EditRetain then 0 else e.Data.length))
          (mergeStep_inv d0 st B e hinv)
      rw [List.foldl_cons, nrc_cons]
      exact ⟨ext, h1, h2, by omega⟩

/-- The first merge step on the head retain just appends it to the result. -/
theorem mergeStep_init (old new d0 : List Sym) :
    mergeStep (([], old, new, [], []) : MergeState) (⟨EditRetain, d0⟩ : Edit) =
      ([(⟨EditRetain, d0⟩ : Edit)], old.drop d0.length, new.drop d0.length, [], []) := by
  have hnd : ¬ ((⟨EditRetain, d0⟩ : Edit).Kind = EditDelete) := by simp [EditRetain, EditDelete]
  have hni : ¬ ((⟨EditRetain, d0⟩ : Edit).Kind = EditInsert) := by simp [EditRetain, EditInsert]
  have hr : (⟨EditRetain, d0⟩ : Edit).Kind = EditRetain := rfl
  rw [mergeStep, if_neg hnd, if_neg hni, if_pos hr]
  simp [mergeRetain]

/-- Structure of a full merge pass over a script that starts and ends with a
retain: the output again starts with the head retain and ends with the final
retain (data extended by reassigned affixes), and each reassigned symbol
removes one pending symbol from each of the delete and insert runs. -/
theorem mergePass_structure (d0 dN : List Sym) (mid : List Edit) (old new : List Sym) :
    ∃ ext sfx,
      (mergePass ((⟨EditRetain, d0⟩ : Edit) :: (mid ++ [(⟨EditRetain, dN⟩ : Edit)]))
          old new).head? = some (⟨EditRetain, d0 ++ ext⟩ : Edit) ∧
      (mergePass ((⟨EditRetain, d0⟩ : Edit) :: (mid ++ [(⟨EditRetain, dN⟩ : Edit)]))
          old new).getLast? = some (⟨EditRetain, dN ++ sfx⟩ : Edit) ∧
      2 ≤ (mergePass ((⟨EditRetain, d0⟩ : Edit) :: (mid ++ [(⟨EditRetain, dN⟩ : Edit)]))
          old new).length ∧
      nonRetainSymCount (mergePass ((⟨EditRetain, d0⟩ : Edit) ::
            (mid ++ [(⟨EditRetain, dN⟩ : Edit)])) old new)
          + 2 * ext.length + 2 * sfx.length
        ≤ nonRetainSymCount ((⟨EditRetain, d0⟩ : Edit) ::
            (mid ++ [(⟨EditRetain, dN⟩ : Edit)])) := by
  rw [mergePass, List.foldl_cons, mergeStep_init, List.foldl_append, List.foldl_cons,
    List.foldl_nil]
  obtain ⟨ext, h1, h2, h3⟩ := foldl_mergeStep_inv d0 mid
    ([(⟨EditRetain, d0⟩ : Edit)], old.drop d0.length, new.drop d0.length, [], []) 0
    ⟨[], by simp, by simp, by simp [nrc_cons_ret, nrc_nil]⟩
  have hnd : ¬ ((⟨EditRetain, dN⟩ : Edit).Kind = EditDelete) := by simp [EditRetain, EditDelete]
  have hni : ¬ ((⟨EditRetain, dN⟩ : Edit).Kind = EditInsert) := by simp [EditRetain, EditInsert]
  have hr : (⟨EditRetain, dN⟩ : Edit).Kind = EditRetain := rfl
  rw [mergeStep, if_neg hnd, if_neg hni, if_pos hr]
  dsimp only
  cases hst : (List.foldl mergeStep
      ([(⟨EditRetain, d0⟩ : Edit)], old.drop d0.length, new.drop d0.length, [], [])
      mid).1 with
  | nil => rw [hst] at h1; simp at h1
  | cons a t =>
      rw [hst] at h1 h2 h3
      simp only [List.head?_cons, Option.some_inj] at h1
      subst h1
      obtain ⟨ext2, sfx2, hh2, hl2, hlen2, hb2⟩ :=
        mergeRetain_spec (d0 ++ ext) t _ _ _ _ (⟨EditRetain, dN⟩ : Edit) rfl h2
      refine ⟨ext ++ ext2, sfx2, ?_, ?_, hlen2, ?_⟩
      · rw [← List.append_assoc]
        exact hh2
      · exact hl2
      · rw [nrc_cons_ret, nrc_append, nrc_cons_ret, nrc_nil]
        simp only [List.length_append] at *
        omega

theorem mergeRetain_len (res : List Edit) (old new tD tI : List Sym) (e : Edit) :
    ((mergeRetain res old new tD tI e).1).length =
      res.length + (if 0 < tD.length then 1 else 0) + (if 0 < tI.length then 1 else 0)
        + 1 := by
  simp only [mergeRetain]
  by_cases hDI : 0 < tD.length ∧ 0 < tI.length
  · rw [if_pos hDI, if_pos hDI.1, if_pos hDI.2]
    by_cases hp : 0 < (findCommonPrefix tI tD).length
    · rw [if_pos hp]
      by_cases hs : 0 < (findCommonSuffix (tI.drop (findCommonPrefix tI tD).length)
          (tD.drop (findCommonPrefix tI tD).length)).length
      · rw [if_pos hs]
        simp [growLastData_length, hDI.1, hDI.2]
      · rw [if_neg hs]
        simp [growLastData_length, hDI.1, hDI.2]
    · rw [if_neg hp]
      by_cases hs : 0 < (findCommonSuffix tI tD).length
      · rw [if_pos hs]
        simp [hDI.1, hDI.2]
      · rw [if_neg hs]
        simp [hDI.1, hDI.2]
  · rw [if_neg hDI]
    by_cases hd : 0 < tD.length
    · have hi : ¬ 0 < tI.length := fun hi => hDI ⟨hd, hi⟩
      rw [if_pos hd, if_pos hd, if_neg hi, if_neg hi]
      simp
    · rw [if_neg hd, if_neg hd]
      by_cases hi : 0 < tI.length
      · rw [if_pos hi, if_pos hi]
        simp
      · rw [if_neg hi, if_neg hi]
        simp

theorem mergeStep_len (st : MergeState) (e : Edit) :
    ((mergeStep st e).1).length + min ((mergeStep st e).2.2.2.1).length 1 +
        min ((mergeStep st e).2.2.2.2).length 1 ≤
      st.1.length + min (st.2.2.2.1).length 1 + min (st.2.2.2.2).length 1 + 1 := by
  by_cases hkD : e.Kind = EditDelete
  · rw [mergeStep, if_pos hkD]
    dsimp only
    omega
  · by_cases hkI : e.Kind = EditInsert
    · rw [mergeStep, if_neg hkD, if_pos hkI]
      dsimp only
      omega
    · by_cases hkR : e.Kind = EditRetain
      · rw [mergeStep, if_neg hkD, if_neg hkI, if_pos hkR]
        dsimp only
        rw [mergeRetain_len]
        split_ifs with h1 h2 <;> (simp only [List.length_nil]; omega)
      · rw [mergeStep, if_neg hkD, if_neg hkI, if_neg hkR]
        omega

theorem foldl_mergeStep_len : ∀ (l : List Edit) (st : MergeState),
    ((l.foldl mergeStep st).1).length + min ((l.foldl mergeStep st).2.2.2.1).length 1 +
        min ((l.foldl mergeStep st).2.2.2.2).length 1 ≤
      st.1.length + min (st.2.2.2.1).length 1 + min (st.2.2.2.2).length 1 + l.length := by
  intro l
  induction l with
  | nil => intro st; simp
  | cons e l ih =>
      intro st
      rw [List.foldl_cons]
      have h1 := ih (mergeStep st e)
      have h2 := mergeStep_len st e
      simp only [List.length_cons]
      omega

/-- The merge pass never lengthens a script. -/
theorem mergePass_length (edits : List Edit) (old new : List Sym) :
    (mergePass edits old new).length ≤ edits.length := by
  have := foldl_mergeStep_len edits ([], old, new, [], [])
  rw [mergePass]
  simp only [List.length_nil] at this
  omega

/-- The sentinel phase of a cleanup round: with at least three edits, the
script with boundary sentinels decomposes as a head retain, a middle, and a
final retain; it keeps the non-retain symbol count and grows the length by
the number of added sentinels, each of which carries empty data. -/
theorem sentinels_spec (d : Differ) (h3 : 3 ≤ d.Edits.length) :
    ∃ g0 gN midl aH aT,
      (if (((if ((d.Edits.headD default).Kind ≠ EditRetain) then
              (⟨EditRetain, []⟩ : Edit) :: d.Edits else d.Edits).getLastD default).Kind
            ≠ EditRetain) then
          (if ((d.Edits.headD default).Kind ≠ EditRetain) then
              (⟨EditRetain, []⟩ : Edit) :: d.Edits else d.Edits) ++ [(⟨EditRetain, []⟩ : Edit)]
        else
          (if ((d.Edits.headD default).Kind ≠ EditRetain) then
              (⟨EditRetain, []⟩ : Edit) :: d.Edits else d.Edits)) =
        (⟨EditRetain, g0⟩ : Edit) :: (midl ++ [(⟨EditRetain, gN⟩ : Edit)]) ∧
      midl.length + 2 = d.Edits.length + aH + aT ∧
      nonRetainSymCount ((⟨EditRetain, g0⟩ : Edit) ::
        (midl ++ [(⟨EditRetain, gN⟩ : Edit)])) = nonRetainSymCount d.Edits ∧
      aH ≤ 1 ∧ aT ≤ 1 ∧ (aH = 1 → g0 = []) ∧ (aT = 1 → gN = []) := by
  obtain ⟨x, xs, hd⟩ : ∃ x xs, d.Edits = x :: xs := by
    cases h : d.Edits with
    | nil => rw [h] at h3; simp at h3
    | cons a b => exact ⟨a, b, rfl⟩
  have hxs : xs ≠ [] := by
    intro h; rw [hd, h] at h3; simp at h3
  by_cases hH : ((d.Edits.headD default).Kind ≠ EditRetain)
  · rw [if_pos hH]
    have hgl : ((⟨EditRetain, []⟩ : Edit) :: d.Edits).getLastD default =
        (x :: xs).getLast (by simp) := by
      rw [hd, List.getLastD_eq_getLast?, List.getLast?_eq_getLast _ (by simp)]
      simp only [Option.getD_some]
      exact List.getLast_cons (by simp)
    by_cases hT : ((((⟨EditRetain, []⟩ : Edit) :: d.Edits).getLastD default).Kind
        ≠ EditRetain)
    · rw [if_pos hT, hd]
      refine ⟨[], [], x :: xs, 1, 1, by simp, by omega, ?_, by omega, by omega,
        fun _ => rfl, fun _ => rfl⟩
      rw [nrc_cons_ret, nrc_append, nrc_cons_ret, nrc_nil]
      omega
    · rw [if_neg hT]
      rw [not_not, hgl] at hT
      have hsplit : x :: xs = (x :: xs).dropLast ++ [(x :: xs).getLast (by simp)] :=
        (List.dropLast_append_getLast (by simp)).symm
      refine ⟨[], ((x :: xs).getLast (by simp)).Data, (x :: xs).dropLast, 1, 0,
        ?_, ?_, ?_, by omega, by omega, fun _ => rfl, by omega⟩
      · rw [hd]
        conv_lhs => rw [hsplit]
        rw [← edit_eta_ret _ hT]
      · rw [hd]
        simp only [List.length_dropLast, List.length_cons]
        omega
      · rw [nrc_cons_ret, nrc_append, ← edit_eta_ret _ hT, hd]
        conv_rhs => rw [hsplit]
        rw [nrc_append]
  · rw [if_neg hH]
    rw [not_not, hd] at hH
    simp only [List.headD_cons] at hH
    have hgl : d.Edits.getLastD default = (x :: xs).getLast (by simp) := by
      rw [hd, List.getLastD_eq_getLast?, List.getLast?_eq_getLast _ (by simp)]
      rfl
    by_cases hT : ((d.Edits.getLastD default).Kind ≠ EditRetain)
    · rw [if_pos hT, hd]
      refine ⟨x.Data, [], xs, 0, 1, ?_, by simp only [List.length_cons]; try omega, ?_,
        by omega, by omega, by omega, fun _ => rfl⟩
      · rw [← edit_eta_ret _ hH]
        rfl
      · rw [← edit_eta_ret _ hH, nrc_cons, nrc_append, nrc_cons_ret, nrc_nil, nrc_cons]
        omega
    · rw [if_neg hT]
      rw [not_not, hgl, List.getLast_cons hxs] at hT
      have hsplit : xs = xs.dropLast ++ [xs.getLast hxs] :=
        (List.dropLast_append_getLast hxs).symm
      refine ⟨x.Data, (xs.getLast hxs).Data, xs.dropLast, 0, 0, ?_, ?_, ?_,
        by omega, by omega, by omega, by omega⟩
      · rw [hd, ← edit_eta_ret _ hT, ← edit_eta_ret _ hH]
        conv_lhs => rw [hsplit]
      · rw [hd]
        simp only [List.length_dropLast, List.length_cons]
        have := List.length_pos.mpr hxs
        omega
      · conv_rhs => rw [hd, hsplit]
        rw [← edit_eta_ret _ hT, ← edit_eta_ret _ hH]

/-- The strip phase of a cleanup round: with a retain at either end of the
merged script, each strip removes exactly the boundary retain whose data is
empty; the length drops by the number of strips and the non-retain symbol
count is unchanged. -/
theorem strips_spec (m0 : List Edit) (dh dt : List Sym)
    (hh : m0.head? = some (⟨EditRetain, dh⟩ : Edit))
    (hl : m0.getLast? = some (⟨EditRetain, dt⟩ : Edit))
    (hlen : 2 ≤ m0.length) :
    (if (((if ((m0.headD default).Data.length = 0) then m0.tail else m0).getLastD
            default).Data.length = 0) then
        (if ((m0.headD default).Data.length = 0) then m0.tail else m0).dropLast
      else (if ((m0.headD default).Data.length = 0) then m0.tail else m0)).length +
        (if dh.length = 0 then 1 else 0) + (if dt.length = 0 then 1 else 0) = m0.length ∧
    nonRetainSymCount
      (if (((if ((m0.headD default).Data.length = 0) then m0.tail else m0).getLastD
            default).Data.length = 0) then
        (if ((m0.headD default).Data.length = 0) then m0.tail else m0).dropLast
      else (if ((m0.headD default).Data.length = 0) then m0.tail else m0)) =
      nonRetainSymCount m0 := by
  obtain ⟨a, t0, hm⟩ : ∃ a t0, m0 = a :: t0 := by
    cases m0 with
    | nil => simp at hh
    | cons a b => exact ⟨a, b, rfl⟩
  subst hm
  simp only [List.head?_cons, Option.some_inj] at hh
  subst hh
  have ht0 : t0 ≠ [] := by
    intro h; subst h; simp at hlen
  obtain ⟨pre, hpre⟩ : ∃ pre, t0 = pre ++ [(⟨EditRetain, dt⟩ : Edit)] := by
    refine ⟨t0.dropLast, ?_⟩
    have h1 : ((⟨EditRetain, dh⟩ : Edit) :: t0).getLast? = t0.getLast? := by
      cases t0 with
      | nil => exact absurd rfl ht0
      | cons b bs => exact List.getLast?_cons_cons ..
    rw [h1, List.getLast?_eq_getLast _ ht0, Option.some_inj] at hl
    conv_lhs => rw [← List.dropLast_append_getLast ht0, hl]
  subst hpre
  have hgld : ((pre ++ [(⟨EditRetain, dt⟩ : Edit)]).getLastD default) =
      (⟨EditRetain, dt⟩ : Edit) := by
    rw [List.getLastD_eq_getLast?, List.getLast?_concat]
    rfl
  by_cases hH0 : dh.length = 0
  · have hc1 : ((((⟨EditRetain, dh⟩ : Edit) ::
        (pre ++ [(⟨EditRetain, dt⟩ : Edit)])).headD default).Data).length = 0 := by
      simpa using hH0
    rw [if_pos hc1]
    simp only [List.tail_cons]
    rw [hgld]
    by_cases hT0 : dt.length = 0
    · have hc2 : (((⟨EditRetain, dt⟩ : Edit)).Data).length = 0 := by simpa using hT0
      rw [if_pos hc2, List.dropLast_concat]
      refine ⟨?_, ?_⟩
      · rw [if_pos hH0, if_pos hT0]
        simp
        try omega
      · simp [nonRetainSymCount]
    · have hc2 : ¬ (((⟨EditRetain, dt⟩ : Edit)).Data).length = 0 := by simpa using hT0
      rw [if_neg hc2]
      refine ⟨?_, ?_⟩
      · rw [if_pos hH0, if_neg hT0]
        simp
        try omega
      · simp [nonRetainSymCount]
  · have hc1 : ¬ ((((⟨EditRetain, dh⟩ : Edit) ::
        (pre ++ [(⟨EditRetain, dt⟩ : Edit)])).headD default).Data).length = 0 := by
      simpa using hH0
    rw [if_neg hc1]
    have hre : (⟨EditRetain, dh⟩ : Edit) :: (pre ++ [(⟨EditRetain, dt⟩ : Edit)]) =
        ((⟨EditRetain, dh⟩ : Edit) :: pre) ++ [(⟨EditRetain, dt⟩ : Edit)] := by simp
    have hgld2 : (((⟨EditRetain, dh⟩ : Edit) ::
        (pre ++ [(⟨EditRetain, dt⟩ : Edit)])).getLastD default) =
        (⟨EditRetain, dt⟩ : Edit) := by
      rw [List.getLastD_eq_getLast?, getLast?_cons_append_cons]
      rfl
    rw [hgld2]
    by_cases hT0 : dt.length = 0
    · have hc2 : (((⟨EditRetain, dt⟩ : Edit)).Data).length = 0 := by simpa using hT0
      rw [if_pos hc2, hre, List.dropLast_concat]
      refine ⟨?_, ?_⟩
      · rw [if_neg hH0, if_pos hT0]
        simp
        try omega
      · simp [nonRetainSymCount]
    · have hc2 : ¬ (((⟨EditRetain, dt⟩ : Edit)).Data).length = 0 := by simpa using hT0
      rw [if_neg hc2]
      refine ⟨?_, ?_⟩
      · rw [if_neg hH0, if_neg hT0]
        simp
        try omega
      · rfl

/-- The shift phase of a cleanup round: when a shift occurred, the output
script is strictly shorter while the non-retain symbol count is unchanged, so
the measure `length + 2 * nonRetainSymCount` strictly decreases. -/
theorem shift_phase (m : List Edit)
    (hflag : (shiftLoop (m.length - 2) 1 [m.headD default] m false).2.2 = true) :
    ((shiftLoop (m.length - 2) 1 [m.headD default] m false).1 ++
        [(shiftLoop (m.length - 2) 1 [m.headD default] m false).2.1.getD
          ((shiftLoop (m.length - 2) 1 [m.headD default] m false).2.1.length - 1)
          default]).length < m.length ∧
    nonRetainSymCount
        ((shiftLoop (m.length - 2) 1 [m.headD default] m false).1 ++
          [(shiftLoop (m.length - 2) 1 [m.headD default] m false).2.1.getD
            ((shiftLoop (m.length - 2) 1 [m.headD default] m false).2.1.length - 1)
            default]) = nonRetainSymCount m := by
  have hfuel : m.length - 2 ≠ 0 := by
    intro h0
    rw [h0] at hflag
    simp [shiftLoop] at hflag
  have hm3 : 3 ≤ m.length := by omega
  obtain ⟨c, cs, hm⟩ : ∃ c cs, m = c :: cs := by
    cases m with
    | nil => simp at hm3
    | cons a b => exact ⟨a, b, rfl⟩
  have hL := shiftLoop_res_length_lt (m.length - 2) 1 [m.headD default] m
    (by simp) hflag
  have hN := shiftLoop_nrc (m.length - 2) 1 [m.headD default] m false
    (by simp) (by omega)
  have hA := shiftLoop_arr_length (m.length - 2) 1 [m.headD default] m false
  rw [show 1 + (m.length - 2) = m.length - 1 from by omega] at hN
  have hlt : m.length - 1 <
      ((shiftLoop (m.length - 2) 1 [m.headD default] m false).2.1).length := by
    rw [hA]; omega
  have hdrop : ((shiftLoop (m.length - 2) 1 [m.headD default] m false).2.1).drop
      (m.length - 1) =
      [((shiftLoop (m.length - 2) 1 [m.headD default] m false).2.1).getD
        (((shiftLoop (m.length - 2) 1 [m.headD default] m false).2.1).length - 1)
        default] := by
    rw [List.drop_eq_getElem_cons hlt]
    have h2 : ((shiftLoop (m.length - 2) 1 [m.headD default] m false).2.1).drop
        (m.length - 1 + 1) = [] := by
      apply List.drop_eq_nil_of_le
      rw [hA]; omega
    rw [h2, List.getD_eq_getElem _ default (by omega)]
    congr 2
    omega
  rw [hdrop] at hN
  have hheadD : m.headD default = c := by rw [hm]; rfl
  have hnrcm : nonRetainSymCount [m.headD default] + nonRetainSymCount (m.drop 1) =
      nonRetainSymCount m := by
    rw [hheadD, hm]
    simp only [List.drop_one, List.tail_cons]
    rw [nrc_cons c cs, nrc_cons c [], nrc_nil]
    omega
  constructor
  · simp only [List.length_append, List.length_cons, List.length_nil,
      List.length_singleton] at hL ⊢
    omega
  · rw [nrc_append]
    omega

/-- One recursing round of the cleanup strictly decreases the measure
`length + 2 * nonRetainSymCount`: merging only moves symbols out of the
non-retain runs (two pending symbols per reassigned affix symbol, which pays
for any kept sentinel), strips only drop empty boundary retains, and the
shift that triggers the recursion drops one edit. -/
theorem cleanupRound_measure (d : Differ) (h3 : 3 ≤ d.Edits.length)
    (hs : (cleanupRound d).2 = true) :
    ((cleanupRound d).1).length + 2 * nonRetainSymCount ((cleanupRound d).1) + 1 ≤
      d.Edits.length + 2 * nonRetainSymCount d.Edits := by
  obtain ⟨g0, gN, midl, aH, aT, hEq, hLen, hNrc, haH, haT, hg0, hgN⟩ := sentinels_spec d h3
  simp only [cleanupRound] at hs ⊢
  rw [hEq] at hs ⊢
  obtain ⟨ext, sfx, hh0, hl0, h2len, hcount⟩ := mergePass_structure g0 gN midl d.Old d.New
  have hml := mergePass_length ((⟨EditRetain, g0⟩ : Edit) ::
    (midl ++ [(⟨EditRetain, gN⟩ : Edit)])) d.Old d.New
  obtain ⟨hslen, hsnrc⟩ := strips_spec _ (g0 ++ ext) (gN ++ sfx) hh0 hl0 h2len
  obtain ⟨hshl, hshn⟩ := shift_phase _ hs
  have hLcons : ((⟨EditRetain, g0⟩ : Edit) ::
      (midl ++ [(⟨EditRetain, gN⟩ : Edit)])).length = midl.length + 2 := by
    simp
  rw [hLcons] at hml
  have hextb : aH ≤ (if (g0 ++ ext).length = 0 then 1 else 0) + ext.length := by
    by_cases hbh : (g0 ++ ext).length = 0
    · rw [if_pos hbh]; omega
    · rw [if_neg hbh]
      by_cases ha1 : aH = 1
      · have hgg := hg0 ha1
        subst hgg
        simp only [List.nil_append] at hbh
        omega
      · omega
  have hsfxb : aT ≤ (if (gN ++ sfx).length = 0 then 1 else 0) + sfx.length := by
    by_cases hbt : (gN ++ sfx).length = 0
    · rw [if_pos hbt]; omega
    · rw [if_neg hbt]
      by_cases ha1 : aT = 1
      · have hgg := hgN ha1
        subst hgg
        simp only [List.nil_append] at hbt
        omega
      · omega
  omega

/-- The cleanup recursion is fuel-insensitive beyond the measure bound: any
two fuels above the measure give the same result, because every recursing
round strictly decreases the measure. -/
theorem cleanup_stabilizes : ∀ (n : Nat) (d : Differ) (f g : Nat),
    d.Edits.length + 2 * nonRetainSymCount d.Edits ≤ n →
    d.Edits.length + 2 * nonRetainSymCount d.Edits < f →
    d.Edits.length + 2 * nonRetainSymCount d.Edits < g →
    MergeShiftDiffCleanup f d = MergeShiftDiffCleanup g d := by
  intro n
  induction n with
  | zero =>
      intro d f g h0 hf hg
      obtain ⟨f1, rfl⟩ : ∃ f1, f = f1 + 1 := ⟨f - 1, by omega⟩
      obtain ⟨g1, rfl⟩ : ∃ g1, g = g1 + 1 := ⟨g - 1, by omega⟩
      have h3 : d.Edits.length < 3 := by omega
      rw [MergeShiftDiffCleanup, if_pos h3, MergeShiftDiffCleanup, if_pos h3]
  | succ n ih =>
      intro d f g h0 hf hg
      obtain ⟨f1, rfl⟩ : ∃ f1, f = f1 + 1 := ⟨f - 1, by omega⟩
      obtain ⟨g1, rfl⟩ : ∃ g1, g = g1 + 1 := ⟨g - 1, by omega⟩
      by_cases h3 : d.Edits.length < 3
      · rw [MergeShiftDiffCleanup, if_pos h3, MergeShiftDiffCleanup, if_pos h3]
      · rw [MergeShiftDiffCleanup_succ f1 d h3, MergeShiftDiffCleanup_succ g1 d h3]
        by_cases hsh : (cleanupRound d).2
        · rw [if_pos hsh, if_pos hsh]
          have hm := cleanupRound_measure d (by omega) hsh
          have hE : ({ d with Edits := (cleanupRound d).1 } : Differ).Edits =
              (cleanupRound d).1 := rfl
          refine ih { d with Edits := (cleanupRound d).1 } f1 g1 ?_ ?_ ?_ <;>
            (rw [hE]; omega)
        · rw [if_neg hsh, if_neg hsh]

/-- Claim C6: the cleanup terminates on every input edit script (any fuel
above the measure `|Edits| + 2 * nonRetainSymCount Edits` yields the same,
stable result), the merge+shift round re-runs exactly when the shift pass
flagged a shift, and a successful shift pass strictly reduces the total
length of the script (one edit per shift) while keeping the non-retain symbol
count unchanged, so the claimed variant "non-retain count or length" strictly
decreases and is bounded below by zero. -/
theorem c6_cleanup_termination :
    (∀ (d : Differ) (fuel : Nat),
        d.Edits.length + 2 * nonRetainSymCount d.Edits < fuel →
        MergeShiftDiffCleanup fuel d =
          MergeShiftDiffCleanup (d.Edits.length + 2 * nonRetainSymCount d.Edits + 1) d) ∧
    (∀ (fuel : Nat) (d : Differ), ¬ d.Edits.length < 3 →
        MergeShiftDiffCleanup (fuel + 1) d =
          if (cleanupRound d).2 then
            MergeShiftDiffCleanup fuel { d with Edits := (cleanupRound d).1 }
          else { d with Edits := (cleanupRound d).1 }) ∧
    (∀ m : List Edit,
        (shiftLoop (m.length - 2) 1 [m.headD default] m false).2.2 = true →
        ((shiftLoop (m.length - 2) 1 [m.headD default] m false).1 ++
            [(shiftLoop (m.length - 2) 1 [m.headD default] m false).2.1.getD
              ((shiftLoop (m.length - 2) 1 [m.headD default] m false).2.1.length - 1)
              default]).length < m.length ∧
        nonRetainSymCount
            ((shiftLoop (m.length - 2) 1 [m.headD default] m false).1 ++
              [(shiftLoop (m.length - 2) 1 [m.headD default] m false).2.1.getD
                ((shiftLoop (m.length - 2) 1 [m.headD default] m false).2.1.length - 1)
                default]) = nonRetainSymCount m) := by
  refine ⟨?_, ?_, ?_⟩
  · intro d fuel h
    exact cleanup_stabilizes (d.Edits.length + 2 * nonRetainSymCount d.Edits) d fuel
      (d.Edits.length + 2 * nonRetainSymCount d.Edits + 1) (Nat.le_refl _) h
      (by omega)
  · intro fuel d h
    exact MergeShiftDiffCleanup_succ fuel d h
  · intro m hm
    exact shift_phase m hm

/-- Witness for C6 at a shifting script: `Old = "abac"`, `New = "ac"` with the
script `[Retain "a", Delete "ba", Retain "c"]`, whose delete run ends with the
preceding retain's data and therefore shifts. -/
theorem c6_cleanup_termination_witness :
    (MergeShiftDiffCleanup 40
        (⟨[⟨EditRetain, [97]⟩, ⟨EditDelete, [98, 97]⟩, ⟨EditRetain, [99]⟩],
          [97, 98, 97, 99], [97, 99], [97, 98, 97, 99], [97, 99]⟩ : Differ) =
      MergeShiftDiffCleanup 8
        (⟨[⟨EditRetain, [97]⟩, ⟨EditDelete, [98, 97]⟩, ⟨EditRetain, [99]⟩],
          [97, 98, 97, 99], [97, 99], [97, 98, 97, 99], [97, 99]⟩ : Differ)) ∧
    (MergeShiftDiffCleanup 6
        (⟨[⟨EditRetain, [97]⟩, ⟨EditDelete, [98, 97]⟩, ⟨EditRetain, [99]⟩],
          [97, 98, 97, 99], [97, 99], [97, 98, 97, 99], [97, 99]⟩ : Differ) =
      if (cleanupRound
          (⟨[⟨EditRetain, [97]⟩, ⟨EditDelete, [98, 97]⟩, ⟨EditRetain, [99]⟩],
            [97, 98, 97, 99], [97, 99], [97, 98, 97, 99], [97, 99]⟩ : Differ)).2 then
        MergeShiftDiffCleanup 5
          { (⟨[⟨EditRetain, [97]⟩, ⟨EditDelete, [98, 97]⟩, ⟨EditRetain, [99]⟩],
              [97, 98, 97, 99], [97, 99], [97, 98, 97, 99], [97, 99]⟩ : Differ) with
            Edits := (cleanupRound
              (⟨[⟨EditRetain, [97]⟩, ⟨EditDelete, [98, 97]⟩, ⟨EditRetain, [99]⟩],
                [97, 98, 97, 99], [97, 99], [97, 98, 97, 99], [97, 99]⟩ : Differ)).1 }
      else
        { (⟨[⟨EditRetain, [97]⟩, ⟨EditDelete, [98, 97]⟩, ⟨EditRetain, [99]⟩],
            [97, 98, 97, 99], [97, 99], [97, 98, 97, 99], [97, 99]⟩ : Differ) with
          Edits := (cleanupRound
            (⟨[⟨EditRetain, [97]⟩, ⟨EditDelete, [98, 97]⟩, ⟨EditRetain, [99]⟩],
              [97, 98, 97, 99], [97, 99], [97, 98, 97, 99], [97, 99]⟩ : Differ)).1 }) ∧
    ((shiftLoop (([(⟨EditRetain, [97]⟩ : Edit), ⟨EditDelete, [98, 97]⟩,
          ⟨EditRetain, [99]⟩] : List Edit).length - 2) 1
        [([(⟨EditRetain, [97]⟩ : Edit), ⟨EditDelete, [98, 97]⟩,
          ⟨EditRetain, [99]⟩] : List Edit).headD default]
        ([(⟨EditRetain, [97]⟩ : Edit), ⟨EditDelete, [98, 97]⟩,
          ⟨EditRetain, [99]⟩] : List Edit) false).1 ++
        [(shiftLoop (([(⟨EditRetain, [97]⟩ : Edit), ⟨EditDelete, [98, 97]⟩,
            ⟨EditRetain, [99]⟩] : List Edit).length - 2) 1
          [([(⟨EditRetain, [97]⟩ : Edit), ⟨EditDelete, [98, 97]⟩,
            ⟨EditRetain, [99]⟩] : List Edit).headD default]
          ([(⟨EditRetain, [97]⟩ : Edit), ⟨EditDelete, [98, 97]⟩,
            ⟨EditRetain, [99]⟩] : List Edit) false).2.1.getD
          ((shiftLoop (([(⟨EditRetain, [97]⟩ : Edit), ⟨EditDelete, [98, 97]⟩,
              ⟨EditRetain, [99]⟩] : List Edit).length - 2) 1
            [([(⟨EditRetain, [97]⟩ : Edit), ⟨EditDelete, [98, 97]⟩,
              ⟨EditRetain, [99]⟩] : List Edit).headD default]
            ([(⟨EditRetain, [97]⟩ : Edit), ⟨EditDelete, [98, 97]⟩,
              ⟨EditRetain, [99]⟩] : List Edit) false).2.1.length - 1) default]).length <
      ([(⟨EditRetain, [97]⟩ : Edit), ⟨EditDelete, [98, 97]⟩,
        ⟨EditRetain, [99]⟩] : List Edit).length :=
  ⟨c6_cleanup_termination.1
      (⟨[⟨EditRetain, [97]⟩, ⟨EditDelete, [98, 97]⟩, ⟨EditRetain, [99]⟩],
        [97, 98, 97, 99], [97, 99], [97, 98, 97, 99], [97, 99]⟩ : Differ) 40 (by decide),
    c6_cleanup_termination.2.1 5
      (⟨[⟨EditRetain, [97]⟩, ⟨EditDelete, [98, 97]⟩, ⟨EditRetain, [99]⟩],
        [97, 98, 97, 99], [97, 99], [97, 98, 97, 99], [97, 99]⟩ : Differ) (by decide),
    (c6_cleanup_termination.2.2
      ([(⟨EditRetain, [97]⟩ : Edit), ⟨EditDelete, [98, 97]⟩, ⟨EditRetain, [99]⟩] :
        List Edit) (by decide)).1⟩

end Myers
